import Mathlib

/-!
# koy.c: the per-event decision engine

A shallow embedding of `src/koy.c`: the three pure tables (`modifier_bit`,
`koy_modifier_bit`, `qwertz2koy`), the record writer `emit`, and the body of the
`while (1)` loop of `main` (lines 303-367) as a function `step` on an explicit state
holding the four variables the loop keeps between events: `mod_state`,
`koy_mod_state`, `array_counter` and `array`.

Conventions.
* A C `int` is a Lean `Int`; the three bit operations the loop uses (`|`, `&`, `~`) act on
  the 32-bit two's complement pattern of their operands (`toBits` / `ofBits`).
* The `__u16` fields `type` and `code` of `struct input_event` are `Fin 65536`;
  `emit` narrows its `int` arguments to them modulo 65536, as the C assignment does.
  The `__s32` field `value` is an `Int`.
* An array access outside the array is undefined behaviour in C; here it makes the
  step return `none`.
* `main` ignores the value `emit` returns (the result of `write`); the model keeps the
  record handed to `emit`. A failed or short `read` ends the loop, so a run is over the
  records that were read.

The file has three parts: the embedding and the vocabulary of the claims, supporting
lemmas (the two loops, the ledger invariant `Inv`, the step specification `step_spec`,
runs from the initial state), and the claims.
-/

namespace Koy

/-! ## Machine integers -/

/-- The 32-bit two's complement pattern of a C `int`. -/
def toBits (x : Int) : Nat := (x % 4294967296).toNat

/-- The C `int` a 32-bit pattern stands for. -/
def ofBits (n : Nat) : Int := if n < 2147483648 then (n : Int) else (n : Int) - 4294967296

/-- C `a | b` on `int`. -/
def c_or (a b : Int) : Int := ofBits (toBits a ||| toBits b)

/-- C `a & b` on `int`. -/
def c_and (a b : Int) : Int := ofBits (toBits a &&& toBits b)

/-- C `~a` on `int`. -/
def c_not (a : Int) : Int := ofBits (4294967295 - toBits a)

/-- Conversion of an `int` to `__u16`. -/
def narrow16 (x : Int) : Fin 65536 :=
  ⟨(x % 65536).toNat, by omega⟩

/-! ## Events -/

/-- The constant `EV_KEY` of `<linux/input.h>` (0x01). -/
def EV_KEY : Int := 1

/-- The fields of `struct input_event` the program reads and writes (the timestamp is
ignored on input and written as zero). -/
structure input_event where
  type : Fin 65536
  code : Fin 65536
  value : Int
deriving DecidableEq, Repr

/-- The record `emit` (lines 87-97) writes to the output device. -/
def emit (type code val : Int) : input_event :=
  { type := narrow16 type, code := narrow16 code, value := val }

/-! ## The tables -/

/-- Lines 100-110. -/
def modifier_bit (key : Int) : Int :=
  if key = 29 then 1       -- l-ctrl
  else if key = 97 then 2  -- r-ctrl
  else if key = 56 then 4  -- l-alt
  else if key = 125 then 8 -- win
  else 0

/-- Lines 113-121. -/
def koy_modifier_bit (key : Int) : Int :=
  if key = 58 then 1       -- CapsLock
  else if key = 43 then 2  -- #
  else if key = 86 then 4  -- <
  else if key = 100 then 8 -- AltGr
  else 0

/-- Lines 127-166. -/
def qwertz2koy (key : Int) : Int :=
  if key = 12 then 25
  else if key = 13 then 13
  else if key = 16 then 45
  else if key = 17 then 51
  else if key = 18 then 32
  else if key = 19 then 37
  else if key = 20 then 36
  else if key = 21 then 26
  else if key = 22 then 34
  else if key = 23 then 33
  else if key = 24 then 18
  else if key = 25 then 50
  else if key = 26 then 47
  else if key = 27 then 27
  else if key = 30 then 31
  else if key = 31 then 39
  else if key = 32 then 35
  else if key = 33 then 40
  else if key = 34 then 22
  else if key = 35 then 30
  else if key = 36 then 53
  else if key = 37 then 16
  else if key = 38 then 24
  else if key = 39 then 48
  else if key = 40 then 46
  else if key = 44 then 20
  else if key = 45 then 44
  else if key = 46 then 23
  else if key = 47 then 21
  else if key = 48 then 49
  else if key = 49 then 38
  else if key = 50 then 52
  else if key = 51 then 19
  else if key = 52 then 17
  else if key = 53 then 12
  else key

/-! ## The engine state -/

/-- The constant `MAX_LENGTH` (line 182). -/
def MAX_LENGTH : Int := 32

/-- The variables of `main` that live across loop iterations. -/
structure State where
  mod_state : Int
  koy_mod_state : Int
  array_counter : Int
  array : List Int
deriving DecidableEq, Repr

/-- The state after lines 196-202. -/
def init : State :=
  { mod_state := 0, koy_mod_state := 0, array_counter := 0, array := List.replicate 32 0 }

/-- Read `array[i]`; `none` outside the array. -/
def rd (array : List Int) (i : Int) : Option Int :=
  if 0 ≤ i ∧ i < array.length then array[i.toNat]? else none

/-- Write `array[i] = v`; `none` outside the array. -/
def wr (array : List Int) (i : Int) (v : Int) : Option (List Int) :=
  if 0 ≤ i ∧ i < array.length then some (array.set i.toNat v) else none

/-- Lines 306-313: the new `mod_state`. -/
def update_mod_state (mod_state : Int) (ev : input_event) : Int :=
  let mod_current := modifier_bit ev.code
  if mod_current > 0 then
    if ev.value = 1 then c_or mod_state mod_current
    else if ev.value = 0 then c_and mod_state (c_not mod_current)
    else mod_state
  else mod_state

/-- Lines 314-321: the new `koy_mod_state`. -/
def update_koy_mod_state (koy_mod_state : Int) (ev : input_event) : Int :=
  let koy_mod_current := koy_modifier_bit ev.code
  if koy_mod_current > 0 then
    if ev.value = 1 then c_or koy_mod_state koy_mod_current
    else if ev.value = 0 then c_and koy_mod_state (c_not koy_mod_current)
    else koy_mod_state
  else koy_mod_state

/-- Lines 343-349: `for (i=0; i<array_counter; i++)`, with `n` iterations left from
index `i`; returns the array and the variable `code`. -/
def scan_loop (ev_code : Int) : Nat → Int → List Int → Int → Option (List Int × Int)
  | 0, _, array, code => some (array, code)
  | n + 1, i, array, code =>
    match rd array i with
    | none => none
    | some v =>
      if v = ev_code + 1 then
        match wr array i 0 with
        | none => none
        | some array' => scan_loop ev_code n (i + 1) array' (qwertz2koy ev_code)
      else scan_loop ev_code n (i + 1) array code

/-- Lines 351-357: `for (i=array_counter-1; i>=0; i--)`, with at most `n = i + 1`
iterations left; returns `array_counter`. -/
def trim_loop (array : List Int) : Nat → Int → Int → Option Int
  | 0, _, array_counter => some array_counter
  | n + 1, i, array_counter =>
    match rd array i with
    | none => none
    | some v =>
      if v = 0 then trim_loop array n (i - 1) (array_counter - 1)
      else some array_counter

/-- What one loop iteration does: the new state, the record passed to `emit`, and
whether the capacity warning of lines 328-329 was printed. -/
structure StepResult where
  state : State
  emitted : input_event
  warning : Bool
deriving DecidableEq, Repr

/-- Line 323: the test that selects the remapping branch, on the updated masks. -/
def eligible (mod_state koy_mod_state array_counter : Int) (ev : input_event) : Prop :=
  (ev.code : Int) ≠ qwertz2koy ev.code ∧ (mod_state > 0 ∨ array_counter > 0) ∧ koy_mod_state = 0

instance (m k a : Int) (ev : input_event) : Decidable (eligible m k a ev) := by
  unfold eligible; infer_instance

/-- Lines 303-367: the body of the event loop for one record read from the device. -/
def step (s : State) (ev : input_event) : Option StepResult :=
  if (ev.type : Int) = EV_KEY ∧ ev.value ≥ 0 ∧ ev.value ≤ 2 then
    let mod_state := update_mod_state s.mod_state ev
    let koy_mod_state := update_koy_mod_state s.koy_mod_state ev
    if eligible mod_state koy_mod_state s.array_counter ev then
      if ev.value = 1 then
        if s.array_counter = MAX_LENGTH then
          some { state := { mod_state := mod_state, koy_mod_state := koy_mod_state,
                            array_counter := s.array_counter, array := s.array },
                 emitted := emit ev.type ev.code ev.value, warning := true }
        else
          match wr s.array s.array_counter (ev.code + 1) with
          | none => none
          | some array =>
            some { state := { mod_state := mod_state, koy_mod_state := koy_mod_state,
                              array_counter := s.array_counter + 1, array := array },
                   emitted := emit ev.type (qwertz2koy ev.code) ev.value, warning := false }
      else if ev.value = 0 then
        match scan_loop ev.code s.array_counter.toNat 0 s.array ev.code with
        | none => none
        | some (array, code) =>
          match trim_loop array s.array_counter.toNat (s.array_counter - 1) s.array_counter with
          | none => none
          | some array_counter =>
            some { state := { mod_state := mod_state, koy_mod_state := koy_mod_state,
                              array_counter := array_counter, array := array },
                   emitted := emit ev.type code ev.value, warning := false }
      else
        some { state := { mod_state := mod_state, koy_mod_state := koy_mod_state,
                          array_counter := s.array_counter, array := s.array },
               emitted := emit ev.type ev.code ev.value, warning := false }
    else
      some { state := { mod_state := mod_state, koy_mod_state := koy_mod_state,
                        array_counter := s.array_counter, array := s.array },
             emitted := emit ev.type ev.code ev.value, warning := false }
  else
    some { state := s, emitted := emit ev.type ev.code ev.value, warning := false }

/-- The loop over a sequence of records: the final state and the emitted records in
order. -/
def run (s : State) : List input_event → Option (State × List input_event)
  | [] => some (s, [])
  | ev :: evs =>
    match step s ev with
    | none => none
    | some r =>
      match run r.state evs with
      | none => none
      | some (s', outs) => some (s', r.emitted :: outs)

/-- A key record. -/
def key (code : Fin 65536) (value : Int) : input_event :=
  { type := 1, code := code, value := value }

/-! ## Vocabulary of the claims -/

/-- The case labels of `qwertz2koy`. -/
def table_sources : List Int :=
  [12, 13, 16, 17, 18, 19, 20, 21, 22, 23, 24, 25, 26, 27, 30, 31, 32, 33, 34, 35, 36, 37, 38,
   39, 40, 44, 45, 46, 47, 48, 49, 50, 51, 52, 53]

/-- The guard of line 303. -/
def is_key_event (ev : input_event) : Prop :=
  ((ev.type : Nat) : Int) = EV_KEY ∧ ev.value ≥ 0 ∧ ev.value ≤ 2

/-- Clearing the slot of a key, as the body of the loop of lines 343-349 does to one
slot. -/
def clear (ev_code : Int) (v : Int) : Int := if v = ev_code + 1 then 0 else v

/-- The key `c` is stored in the ledger: some slot holds `c + 1`. -/
def tracked (s : State) (c : Fin 65536) : Prop := ((c : Nat) : Int) + 1 ∈ s.array

/-- The ledger seen as the list `live` of its first `array_counter` slots, the other
slots being empty. -/
def Rep (s : State) (live : List Int) : Prop :=
  s.array = live ++ List.replicate (32 - live.length) 0 ∧ live.length ≤ 32 ∧
    s.array_counter = (live.length : Int)

/-- Trailing empty slots removed. -/
def strip (l : List Int) : List Int := l.rdropWhile (fun v => v = 0)

instance (ev : input_event) : Decidable (is_key_event ev) := by
  unfold is_key_event; infer_instance

/-- The slots in use are well formed: the last one is occupied, and every occupied one
holds `c + 1` for a 16-bit code `c` that the table changes. -/
def Good (live : List Int) : Prop :=
  live.getLast? ≠ some 0 ∧
    ∀ v ∈ live, v = 0 ∨ ∃ c : Fin 65536, v = ((c : Nat) : Int) + 1 ∧
      ((c : Nat) : Int) ≠ qwertz2koy c

/-- The invariant of the loop on the ledger. -/
def Inv (s : State) : Prop := ∃ live, Rep s live ∧ Good live

/-- Line 323 evaluated for the event `ev` arriving in state `s`. -/
def elig (s : State) (ev : input_event) : Prop :=
  eligible (update_mod_state s.mod_state ev) (update_koy_mod_state s.koy_mod_state ev)
    s.array_counter ev

/-- The event `ev` arriving in state `s` is emitted with the mapped code. -/
def remaps (s : State) (ev : input_event) : Prop :=
  is_key_event ev ∧ elig s ev ∧
    ((ev.value = 1 ∧ s.array_counter ≠ 32) ∨ (ev.value = 0 ∧ tracked s ev.code))

/-- The record `e` is a PRESSED or RELEASED key record of the key `c`. -/
def is_pr (c : Fin 65536) (e : input_event) : Prop :=
  ((e.type : Nat) : Int) = EV_KEY ∧ e.code = c ∧ (e.value = 0 ∨ e.value = 1)

instance (c : Fin 65536) (e : input_event) : Decidable (is_pr c e) := by
  unfold is_pr; infer_instance

/-- The value of the last PRESSED or RELEASED record of the key `c` in `evs`, if there is
one. The key is held after `evs` when this is `some 1`. -/
def last_pr (c : Fin 65536) (evs : List input_event) : Option Int :=
  ((evs.filter (fun e => decide (is_pr c e))).getLast?).map (fun e => e.value)

/-- The trigger keys (case labels of `modifier_bit`). -/
def trigger_keys : List (Fin 65536) := [29, 97, 56, 125]

/-- The override keys (case labels of `koy_modifier_bit`). -/
def override_keys : List (Fin 65536) := [58, 43, 86, 100]

/-- The sequence has no key record of an override key. -/
def NoOverride (evs : List input_event) : Prop :=
  ∀ e ∈ evs, ¬ (((e.type : Nat) : Int) = EV_KEY ∧ e.code ∈ override_keys)

instance (evs : List input_event) : Decidable (NoOverride evs) := by
  unfold NoOverride; infer_instance

/-- For each key, PRESSED and RELEASED records alternate, starting with PRESSED: a
PRESSED record comes when the key is not held, a RELEASED record when it is. -/
def Alternating (evs : List input_event) : Prop :=
  ∀ i : Fin evs.length, (((evs.get i).type : Nat) : Int) = EV_KEY →
    ((evs.get i).value = 1 → last_pr (evs.get i).code (evs.take i) ≠ some 1) ∧
    ((evs.get i).value = 0 → last_pr (evs.get i).code (evs.take i) = some 1)

instance (evs : List input_event) : Decidable (Alternating evs) := by
  unfold Alternating; infer_instance

/-- No key is held at the end of the sequence. -/
def AllReleased (evs : List input_event) : Prop :=
  ∀ e ∈ evs, last_pr e.code evs ≠ some 1

instance (evs : List input_event) : Decidable (AllReleased evs) := by
  unfold AllReleased; infer_instance

/-- The values a modifier mask takes. -/
def masks : List Int := [0, 1, 2, 3, 4, 5, 6, 7, 8, 9, 10, 11, 12, 13, 14, 15]

/-- The bits of a modifier mask. -/
def bits : List Int := [1, 2, 4, 8]

/-- The trigger keys with their bits (lines 104-107). -/
def trigger_bits : List (Fin 65536 × Int) := [(29, 1), (97, 2), (56, 4), (125, 8)]

/-- The override keys with their bits (lines 115-118). -/
def override_bits : List (Fin 65536 × Int) := [(58, 1), (43, 2), (86, 4), (100, 8)]

/-- The shape shared by lines 307-313 and 315-321: the mask `m` after a record with
value `v` whose key has the bit `b`. -/
def upd (b v m : Int) : Int :=
  if b > 0 then
    if v = 1 then c_or m b
    else if v = 0 then c_and m (c_not b)
    else m
  else m

instance (s : State) (c : Fin 65536) : Decidable (tracked s c) := by
  unfold tracked; infer_instance

/-- The keys the table changes, but for one: 32 keys to fill the ledger. -/
def fill_keys : List (Fin 65536) :=
  [12, 16, 17, 18, 19, 20, 21, 22, 23, 24, 25, 26, 30, 31, 32, 33, 34, 35, 36, 37, 38, 39, 40,
   44, 45, 46, 47, 48, 49, 50, 51, 52]

/-- The state with left control held and the 32 keys of `fill_keys` tracked. -/
def full_state : State :=
  { mod_state := 1, koy_mod_state := 0, array_counter := 32,
    array := fill_keys.map (fun c => ((c : Nat) : Int) + 1) }

/-- The last PRESSED or RELEASED record of the key `c` in `evs`, with the record
emitted for it (`outs` lists the emitted records in order). -/
def last_pr_io (c : Fin 65536) (evs outs : List input_event) :
    Option (input_event × input_event) :=
  ((evs.zip outs).filter (fun p => decide (is_pr c p.1))).getLast?

/-- The key `c` is held at the end of `evs` and its press was emitted remapped: the last
press or release record of `c` is a press, and the record emitted for it carries another
code. -/
def held_remapped (c : Fin 65536) (evs outs : List input_event) : Prop :=
  match last_pr_io c evs outs with
  | some p => p.1.value = 1 ∧ p.2.code ≠ p.1.code
  | none => False

instance (c : Fin 65536) (evs outs : List input_event) :
    Decidable (held_remapped c evs outs) := by
  unfold held_remapped; split <;> infer_instance

/-- The eight modifier codes: the case labels of `modifier_bit` and `koy_modifier_bit`. -/
def modifier_codes : List Int := [29, 97, 56, 125, 58, 43, 86, 100]

/-- The state `s` is reached from the initial state by some sequence of records. -/
def Reachable (s : State) : Prop := ∃ evs outs, run init evs = some (s, outs)

/-- The state with left control held in which the 32 keys of `fill_keys` were tracked and
the first of them (key 12, slot 0) was released: slot 0 is empty, count is still 32. -/
def hole_state : State :=
  { mod_state := 1, koy_mod_state := 0, array_counter := 32,
    array := 0 :: (fill_keys.tail.map (fun c => ((c : Nat) : Int) + 1)) }

/-- The state after left control PRESSED, 12 PRESSED, 16 PRESSED, 12 RELEASED: slot 0 is
empty again, slot 1 holds key 16, count is 2. -/
def gap_state : State :=
  { mod_state := 1, koy_mod_state := 0, array_counter := 2,
    array := 0 :: 17 :: List.replicate 30 0 }

/-- The contents of the occupied slots of a list of slots, in slot order. -/
def occupied (l : List Int) : List Int := l.filter (fun v => decide (v ≠ 0))

/-- Line 323 decided for a record arriving in a state. -/
instance (s : State) (ev : input_event) : Decidable (elig s ev) := by
  unfold elig; infer_instance

/-- The property `P` of a state and the record arriving in it, for the state a run ended
in. -/
def holds_after (P : State → input_event → Prop) :
    Option (State × List input_event) → input_event → Prop
  | some p, e => P p.1 e
  | none, _ => True

instance (P : State → input_event → Prop) [∀ s e, Decidable (P s e)]
    (o : Option (State × List input_event)) (e : input_event) :
    Decidable (holds_after P o e) := by
  cases o <;> unfold holds_after <;> infer_instance

/-- Every record of `evs` arrives in a state, the one reached from the initial state by
the records before it, in which `P` holds for it. -/
def AtEveryRecord (P : State → input_event → Prop) (evs : List input_event) : Prop :=
  ∀ i : Fin evs.length, holds_after P (run init (evs.take i)) (evs.get i)

instance (P : State → input_event → Prop) [∀ s e, Decidable (P s e)]
    (evs : List input_event) : Decidable (AtEveryRecord P evs) := by
  unfold AtEveryRecord; infer_instance

/-- The record `e` arriving in state `s` is not a release that line 323 gates out for a
key stored in the ledger: if `e` is a RELEASED key record of a tracked key, the override
mask after the update of lines 314-321 is 0. -/
def hazard_ok (s : State) (e : input_event) : Prop :=
  ((e.type : Nat) : Int) = EV_KEY → e.value = 0 → tracked s e.code →
    update_koy_mod_state s.koy_mod_state e = 0

instance (s : State) (e : input_event) : Decidable (hazard_ok s e) := by
  unfold hazard_ok; infer_instance

/-- No RELEASED record of the sequence arrives for a key that is stored in the ledger at
that moment while the override mask is not 0. Override-key records are allowed. -/
def HazardFree (evs : List input_event) : Prop := AtEveryRecord hazard_ok evs

instance (evs : List input_event) : Decidable (HazardFree evs) := by
  unfold HazardFree; infer_instance

/-- The record `e` arriving in state `s` does not store a key a second time: if `e` is a
PRESSED key record of a key stored in the ledger, it is not tracked (line 323 fails or
`array_counter` is `MAX_LENGTH`). -/
def retrack_ok (s : State) (e : input_event) : Prop :=
  ((e.type : Nat) : Int) = EV_KEY → e.value = 1 → tracked s e.code →
    ¬ (elig s e ∧ s.array_counter ≠ MAX_LENGTH)

instance (s : State) (e : input_event) : Decidable (retrack_ok s e) := by
  unfold retrack_ok; infer_instance

/-- No PRESSED record of the sequence is tracked for a key that is stored in the ledger
at that moment. Override-key records are allowed. -/
def NoRetrack (evs : List input_event) : Prop := AtEveryRecord retrack_ok evs

instance (evs : List input_event) : Decidable (NoRetrack evs) := by
  unfold NoRetrack; infer_instance

/-- No RELEASED record of a key the table changes arrives while an override key is
held. -/
def NoReleaseUnderOverride (evs : List input_event) : Prop :=
  ∀ i : Fin evs.length, (((evs.get i).type : Nat) : Int) = EV_KEY → (evs.get i).value = 0 →
    qwertz2koy (evs.get i).code ≠ (evs.get i).code →
    ∀ o ∈ override_keys, last_pr o (evs.take i) ≠ some 1

/-! ## Supporting lemmas -/

theorem narrow16_val (x : Fin 65536) : narrow16 ((x : Nat) : Int) = x := by
  apply Fin.ext
  simp only [narrow16]
  omega

theorem emit_self (ev : input_event) : emit ev.type ev.code ev.value = ev := by
  cases ev
  simp [emit, narrow16_val]

theorem qwertz2koy_off_table (k : Int) (h : k ∉ table_sources) :
    qwertz2koy k = k := by
  simp only [table_sources, List.mem_cons, List.mem_singleton, not_or, List.mem_nil_iff,
    not_false_eq_true, and_true] at h
  simp only [qwertz2koy, h, if_false]

theorem mem_table_of_remapped (k : Int) (h : k ≠ qwertz2koy k) : k ∈ table_sources := by
  by_contra hk
  exact h (qwertz2koy_off_table k hk).symm

theorem qwertz2koy_range (k : Int) (h0 : 0 ≤ k) (h1 : k < 65536) :
    0 ≤ qwertz2koy k ∧ qwertz2koy k < 65536 := by
  by_cases hk : k ∈ table_sources
  · exact (by decide : ∀ x ∈ table_sources, 0 ≤ qwertz2koy x ∧ qwertz2koy x < 65536) k hk
  · rw [qwertz2koy_off_table k hk]; exact ⟨h0, h1⟩

theorem modifier_bit_of_remapped (k : Int) (h : k ≠ qwertz2koy k) : modifier_bit k = 0 :=
  (by decide : ∀ x ∈ table_sources, modifier_bit x = 0) k (mem_table_of_remapped k h)

theorem koy_modifier_bit_of_remapped (k : Int) (h : k ≠ qwertz2koy k) :
    koy_modifier_bit k = 0 :=
  (by decide : ∀ x ∈ table_sources, koy_modifier_bit x = 0) k (mem_table_of_remapped k h)

theorem narrow16_qwertz2koy (c : Fin 65536) :
    ((narrow16 (qwertz2koy ((c : Nat) : Int)) : Nat) : Int) = qwertz2koy ((c : Nat) : Int) := by
  have := qwertz2koy_range ((c : Nat) : Int) (by omega) (by omega)
  simp only [narrow16]
  omega

theorem update_mod_state_of_remapped (m : Int) (ev : input_event)
    (h : ((ev.code : Nat) : Int) ≠ qwertz2koy ev.code) : update_mod_state m ev = m := by
  simp [update_mod_state, modifier_bit_of_remapped _ h]

theorem update_koy_mod_state_of_remapped (m : Int) (ev : input_event)
    (h : ((ev.code : Nat) : Int) ≠ qwertz2koy ev.code) : update_koy_mod_state m ev = m := by
  simp [update_koy_mod_state, koy_modifier_bit_of_remapped _ h]

theorem step_not_key (s : State) (ev : input_event) (hc : ¬ is_key_event ev) :
    step s ev = some { state := s, emitted := ev, warning := false } := by
  unfold is_key_event at hc
  rw [step, if_neg hc, emit_self]

theorem step_ineligible (s : State) (ev : input_event) (hc : is_key_event ev)
    (he : ¬ eligible (update_mod_state s.mod_state ev)
      (update_koy_mod_state s.koy_mod_state ev) s.array_counter ev) :
    step s ev = some
      { state := { mod_state := update_mod_state s.mod_state ev,
                   koy_mod_state := update_koy_mod_state s.koy_mod_state ev,
                   array_counter := s.array_counter, array := s.array },
        emitted := ev, warning := false } := by
  unfold is_key_event at hc
  rw [step, if_pos hc]
  dsimp only
  rw [if_neg he, emit_self]

theorem step_press_full (s : State) (ev : input_event) (hc : is_key_event ev)
    (he : eligible (update_mod_state s.mod_state ev)
      (update_koy_mod_state s.koy_mod_state ev) s.array_counter ev)
    (hv : ev.value = 1) (hfull : s.array_counter = MAX_LENGTH) :
    step s ev = some
      { state := { mod_state := update_mod_state s.mod_state ev,
                   koy_mod_state := update_koy_mod_state s.koy_mod_state ev,
                   array_counter := s.array_counter, array := s.array },
        emitted := ev, warning := true } := by
  unfold is_key_event at hc
  rw [step, if_pos hc]
  dsimp only
  rw [if_pos he, if_pos hv, if_pos hfull, emit_self]

theorem step_press_track (s : State) (ev : input_event) (hc : is_key_event ev)
    (he : eligible (update_mod_state s.mod_state ev)
      (update_koy_mod_state s.koy_mod_state ev) s.array_counter ev)
    (hv : ev.value = 1) (hfull : s.array_counter ≠ MAX_LENGTH) :
    step s ev =
      match wr s.array s.array_counter (((ev.code : Nat) : Int) + 1) with
      | none => none
      | some array => some
        { state := { mod_state := update_mod_state s.mod_state ev,
                     koy_mod_state := update_koy_mod_state s.koy_mod_state ev,
                     array_counter := s.array_counter + 1, array := array },
          emitted := emit ev.type (qwertz2koy ev.code) ev.value, warning := false } := by
  unfold is_key_event at hc
  rw [step, if_pos hc]
  dsimp only
  rw [if_pos he, if_pos hv, if_neg hfull]

theorem step_release (s : State) (ev : input_event) (hc : is_key_event ev)
    (he : eligible (update_mod_state s.mod_state ev)
      (update_koy_mod_state s.koy_mod_state ev) s.array_counter ev)
    (hv : ev.value = 0) :
    step s ev =
      match scan_loop ev.code s.array_counter.toNat 0 s.array ev.code with
      | none => none
      | some (array, code) =>
        match trim_loop array s.array_counter.toNat (s.array_counter - 1) s.array_counter with
        | none => none
        | some array_counter => some
          { state := { mod_state := update_mod_state s.mod_state ev,
                       koy_mod_state := update_koy_mod_state s.koy_mod_state ev,
                       array_counter := array_counter, array := array },
            emitted := emit ev.type code ev.value, warning := false } := by
  unfold is_key_event at hc
  have hv1 : ¬ ev.value = 1 := by omega
  rw [step, if_pos hc]
  dsimp only
  rw [if_pos he, if_neg hv1, if_pos hv]

theorem step_repeat (s : State) (ev : input_event) (hc : is_key_event ev) (hv : ev.value = 2) :
    step s ev = some
      { state := { mod_state := update_mod_state s.mod_state ev,
                   koy_mod_state := update_koy_mod_state s.koy_mod_state ev,
                   array_counter := s.array_counter, array := s.array },
        emitted := ev, warning := false } := by
  by_cases he : eligible (update_mod_state s.mod_state ev)
      (update_koy_mod_state s.koy_mod_state ev) s.array_counter ev
  · unfold is_key_event at hc
    have hv1 : ¬ ev.value = 1 := by omega
    have hv0 : ¬ ev.value = 0 := by omega
    rw [step, if_pos hc]
    dsimp only
    rw [if_pos he, if_neg hv1, if_neg hv0, emit_self]
  · exact step_ineligible s ev hc he

theorem rd_append (pre : List Int) (v : Int) (rest : List Int) :
    rd (pre ++ v :: rest) (pre.length : Int) = some v := by
  have h : (0 : Int) ≤ (pre.length : Int) ∧
      (pre.length : Int) < ((pre ++ v :: rest).length : Int) := by
    simp only [List.length_append, List.length_cons]
    omega
  rw [rd, if_pos h]
  simp only [Int.toNat_ofNat]
  rw [List.getElem?_append_right (Nat.le_refl _)]
  simp

theorem wr_append (pre : List Int) (v w : Int) (rest : List Int) :
    wr (pre ++ v :: rest) (pre.length : Int) w = some (pre ++ w :: rest) := by
  have h : (0 : Int) ≤ (pre.length : Int) ∧
      (pre.length : Int) < ((pre ++ v :: rest).length : Int) := by
    simp only [List.length_append, List.length_cons]
    omega
  rw [wr, if_pos h]
  simp

theorem scan_loop_spec (ev_code : Int) (n : Nat) :
    ∀ (pre rest : List Int) (code : Int), n ≤ rest.length →
      scan_loop ev_code n (pre.length : Int) (pre ++ rest) code =
        some (pre ++ (rest.take n).map (clear ev_code) ++ rest.drop n,
              if ev_code + 1 ∈ rest.take n then qwertz2koy ev_code else code) := by
  induction n with
  | zero => intro pre rest code _; simp [scan_loop]
  | succ n ih =>
    intro pre rest code hn
    cases rest with
    | nil => simp at hn
    | cons v rest =>
      have hn' : n ≤ rest.length := by simpa using hn
      rw [scan_loop, rd_append]
      dsimp only
      by_cases hv : v = ev_code + 1
      · rw [if_pos hv, wr_append]
        dsimp only
        have e1 : pre ++ 0 :: rest = (pre ++ [0]) ++ rest := by simp
        have e2 : ((pre.length : Int) + 1) = ((pre ++ [0]).length : Int) := by simp
        rw [e1, e2, ih (pre ++ [0]) rest _ hn']
        simp [clear, hv]
      · rw [if_neg hv]
        have e1 : pre ++ v :: rest = (pre ++ [v]) ++ rest := by simp
        have e2 : ((pre.length : Int) + 1) = ((pre ++ [v]).length : Int) := by simp
        rw [e1, e2, ih (pre ++ [v]) rest _ hn']
        have hv' : ¬ ev_code + 1 = v := fun h => hv h.symm
        simp [clear, hv, hv']

theorem trim_loop_spec (l : List Int) :
    ∀ (suffix : List Int) (cnt : Int),
      trim_loop (l ++ suffix) l.length ((l.length : Int) - 1) cnt =
        some (cnt - ((l.length : Int) - ((l.rdropWhile (fun v => v = 0)).length : Int))) := by
  induction l using List.reverseRecOn with
  | nil => intro suffix cnt; simp [trim_loop]
  | append_singleton l v ih =>
    intro suffix cnt
    have e0 : (l ++ [v]).length = l.length + 1 := by simp
    have e1 : (((l ++ [v]).length : Nat) : Int) - 1 = (l.length : Int) := by simp
    have e2 : l ++ [v] ++ suffix = l ++ v :: suffix := by simp
    rw [e1, e0, trim_loop, e2, rd_append]
    dsimp only
    by_cases hv : v = 0
    · rw [if_pos hv, ih (v :: suffix)]
      simp [List.rdropWhile_concat, hv]
      omega
    · rw [if_neg hv]
      simp [List.rdropWhile_concat, hv]

theorem strip_zeros (l : List Int) :
    l = strip l ++ List.replicate (l.length - (strip l).length) 0 := by
  induction l using List.reverseRecOn with
  | nil => simp [strip]
  | append_singleton l v ih =>
    by_cases hv : v = 0
    · have e : strip (l ++ [v]) = strip l := by simp [strip, List.rdropWhile_concat, hv]
      have hle : (strip l).length ≤ l.length := by
        have := congrArg List.length ih
        simp only [List.length_append, List.length_replicate] at this
        omega
      rw [e]
      have e2 : (l ++ [v]).length - (strip l).length = (l.length - (strip l).length) + 1 := by
        simp only [List.length_append, List.length_singleton]
        omega
      rw [e2, List.replicate_succ', ← List.append_assoc, ← ih, hv]
    · have e : strip (l ++ [v]) = l ++ [v] := by simp [strip, List.rdropWhile_concat, hv]
      rw [e]
      simp

theorem strip_length_le (l : List Int) : (strip l).length ≤ l.length := by
  have := congrArg List.length (strip_zeros l)
  simp only [List.length_append, List.length_replicate] at this
  omega

theorem mem_append_zeros (x : Int) (hx : x ≠ 0) (l : List Int) (k : Nat) :
    x ∈ l ++ List.replicate k 0 ↔ x ∈ l := by
  simp only [List.mem_append, List.mem_replicate]
  constructor
  · rintro (h | ⟨-, h⟩)
    · exact h
    · exact absurd h hx
  · exact Or.inl

theorem mem_strip (x : Int) (hx : x ≠ 0) (l : List Int) : x ∈ strip l ↔ x ∈ l := by
  conv_rhs => rw [strip_zeros l]
  rw [mem_append_zeros x hx]

theorem strip_getLast (l : List Int) : (strip l).getLast? ≠ some 0 := by
  intro h
  have hne : strip l ≠ [] := by
    intro h0
    rw [h0] at h
    simp at h
  have := List.rdropWhile_last_not (fun v : Int => decide (v = 0)) l hne
  rw [List.getLast?_eq_getLast _ hne] at h
  simp only [strip] at h
  simp only [Option.some.injEq] at h
  simp [h] at this

theorem step_track_rep (s : State) (ev : input_event) (live : List Int) (hR : Rep s live)
    (hc : is_key_event ev)
    (he : eligible (update_mod_state s.mod_state ev)
      (update_koy_mod_state s.koy_mod_state ev) s.array_counter ev)
    (hv : ev.value = 1) (hfull : s.array_counter ≠ MAX_LENGTH) :
    ∃ r, step s ev = some r ∧ Rep r.state (live ++ [((ev.code : Nat) : Int) + 1]) ∧
      r.state.mod_state = update_mod_state s.mod_state ev ∧
      r.state.koy_mod_state = update_koy_mod_state s.koy_mod_state ev ∧
      r.emitted = emit ev.type (qwertz2koy ev.code) ev.value ∧ r.warning = false := by
  obtain ⟨harr, hlen, hcnt⟩ := hR
  have hlt : live.length < 32 := by
    simp only [MAX_LENGTH] at hfull
    omega
  have hrep : List.replicate (32 - live.length) (0 : Int) =
      0 :: List.replicate (32 - (live.length + 1)) 0 := by
    have : 32 - live.length = (32 - (live.length + 1)) + 1 := by omega
    rw [this, List.replicate_succ]
  rw [step_press_track s ev hc he hv hfull, harr, hcnt, hrep, wr_append]
  refine ⟨_, rfl, ?_, rfl, rfl, rfl, rfl⟩
  refine ⟨?_, ?_, ?_⟩
  · simp
  · simp; omega
  · simp

theorem step_release_rep (s : State) (ev : input_event) (live : List Int) (hR : Rep s live)
    (hc : is_key_event ev)
    (he : eligible (update_mod_state s.mod_state ev)
      (update_koy_mod_state s.koy_mod_state ev) s.array_counter ev)
    (hv : ev.value = 0) :
    ∃ r, step s ev = some r ∧ Rep r.state (strip (live.map (clear ev.code))) ∧
      r.state.mod_state = update_mod_state s.mod_state ev ∧
      r.state.koy_mod_state = update_koy_mod_state s.koy_mod_state ev ∧
      r.emitted = emit ev.type
        (if ((ev.code : Nat) : Int) + 1 ∈ live then qwertz2koy ev.code else ev.code) ev.value ∧
      r.warning = false := by
  obtain ⟨harr, hlen, hcnt⟩ := hR
  have hscan := scan_loop_spec ev.code live.length [] s.array ev.code
    (by rw [harr]; simp)
  simp only [List.length_nil, Nat.cast_zero, List.nil_append] at hscan
  have htake : s.array.take live.length = live := by rw [harr]; simp
  have hdrop : s.array.drop live.length = List.replicate (32 - live.length) 0 := by
    rw [harr]; simp
  rw [htake, hdrop] at hscan
  have htrim := trim_loop_spec (live.map (clear ev.code)) (List.replicate (32 - live.length) 0)
    (live.length : Int)
  simp only [List.length_map] at htrim
  have hcn : s.array_counter.toNat = live.length := by omega
  rw [step_release s ev hc he hv, hcn, hscan]
  dsimp only
  rw [hcnt, htrim]
  refine ⟨_, rfl, ?_, rfl, rfl, rfl, rfl⟩
  have hle := strip_length_le (live.map (clear ev.code))
  simp only [List.length_map] at hle
  have hz := strip_zeros (live.map (clear ev.code))
  simp only [List.length_map] at hz
  refine ⟨?_, by omega, ?_⟩
  · show List.map (clear ev.code) live ++ List.replicate (32 - live.length) 0 = _
    conv_lhs => rw [hz]
    rw [List.append_assoc, ← List.replicate_add]
    congr 2
    omega
  · show (live.length : Int) - ((live.length : Int) -
      (((live.map (clear ev.code)).rdropWhile (fun v => decide (v = 0))).length : Int)) = _
    simp only [strip]
    omega

theorem tracked_iff_live (s : State) (live : List Int) (hR : Rep s live) (c : Fin 65536) :
    tracked s c ↔ ((c : Nat) : Int) + 1 ∈ live := by
  unfold tracked
  rw [hR.1]
  exact mem_append_zeros _ (by omega) _ _

theorem init_inv : Inv init :=
  ⟨[], ⟨rfl, by decide, rfl⟩, by simp, by simp⟩

theorem good_snoc (live : List Int) (hG : Good live) (c : Fin 65536)
    (hc : ((c : Nat) : Int) ≠ qwertz2koy c) : Good (live ++ [((c : Nat) : Int) + 1]) := by
  refine ⟨?_, ?_⟩
  · rw [List.getLast?_concat]
    intro h
    simp only [Option.some.injEq] at h
    omega
  · intro v hv
    rcases List.mem_append.1 hv with h | h
    · exact hG.2 v h
    · right
      exact ⟨c, by simpa using h, hc⟩

theorem good_strip_clear (live : List Int) (hG : Good live) (k : Int) :
    Good (strip (live.map (clear k))) := by
  refine ⟨strip_getLast _, ?_⟩
  intro v hv
  by_cases h0 : v = 0
  · exact Or.inl h0
  · rw [mem_strip v h0] at hv
    obtain ⟨w, hw, hwv⟩ := List.mem_map.1 hv
    unfold clear at hwv
    split_ifs at hwv with h
    · exact absurd hwv.symm h0
    · rw [← hwv]; exact hG.2 w hw

theorem mem_map_clear (x : Int) (hx : x ≠ 0) (k : Int) (live : List Int) :
    x ∈ live.map (clear k) ↔ x ∈ live ∧ x ≠ k + 1 := by
  constructor
  · intro h
    obtain ⟨w, hw, hwv⟩ := List.mem_map.1 h
    unfold clear at hwv
    split_ifs at hwv with h1
    · exact absurd hwv.symm hx
    · subst hwv; exact ⟨hw, h1⟩
  · rintro ⟨h, h1⟩
    exact List.mem_map.2 ⟨x, h, by simp [clear, h1]⟩

theorem emit_type_value (ev : input_event) (code : Int) :
    (emit ev.type code ev.value).type = ev.type ∧ (emit ev.type code ev.value).value = ev.value := by
  simp [emit, narrow16_val]

theorem emit_code_mapped (ev : input_event) :
    (((emit ev.type (qwertz2koy ev.code) ev.value).code : Nat) : Int) = qwertz2koy ev.code := by
  simp only [emit]
  exact narrow16_qwertz2koy ev.code

/-- What one loop iteration does to a state that satisfies the invariant, in terms of
the keys the ledger tracks. -/
theorem step_spec (s : State) (ev : input_event) (hI : Inv s) :
    ∃ r, step s ev = some r ∧ Inv r.state ∧
      r.state.mod_state =
        (if is_key_event ev then update_mod_state s.mod_state ev else s.mod_state) ∧
      r.state.koy_mod_state =
        (if is_key_event ev then update_koy_mod_state s.koy_mod_state ev
         else s.koy_mod_state) ∧
      r.emitted.type = ev.type ∧ r.emitted.value = ev.value ∧
      (∀ c, tracked r.state c ↔
        (tracked s c ∧ ¬ (ev.code = c ∧ is_key_event ev ∧ elig s ev ∧ ev.value = 0)) ∨
        (ev.code = c ∧ is_key_event ev ∧ elig s ev ∧ ev.value = 1 ∧ s.array_counter ≠ 32)) ∧
      (remaps s ev → ((r.emitted.code : Nat) : Int) = qwertz2koy ev.code) ∧
      (¬ remaps s ev → r.emitted = ev) := by
  obtain ⟨live, hR, hG⟩ := hI
  by_cases hc : is_key_event ev
  swap
  · refine ⟨_, step_not_key s ev hc, ⟨live, hR, hG⟩, by simp [hc], by simp [hc], rfl, rfl, ?_,
      ?_, fun _ => rfl⟩
    · intro c; simp [hc]
    · intro h; exact absurd h.1 hc
  by_cases he : elig s ev
  swap
  · refine ⟨_, step_ineligible s ev hc he, ⟨live, hR, hG⟩, by simp [hc], by simp [hc], rfl, rfl,
      ?_, ?_, fun _ => rfl⟩
    · intro c; simp [he, tracked]
    · intro h; exact absurd h.2.1 he
  have hrem : ((ev.code : Nat) : Int) ≠ qwertz2koy ev.code := he.1
  by_cases hv1 : ev.value = 1
  · by_cases hfull : s.array_counter = MAX_LENGTH
    · have h32 : s.array_counter = 32 := hfull
      refine ⟨_, step_press_full s ev hc he hv1 hfull, ⟨live, hR, hG⟩, by simp [hc],
        by simp [hc], rfl, rfl, ?_, ?_, fun _ => rfl⟩
      · intro c; simp [hv1, h32, tracked]
      · rintro ⟨-, -, h | h⟩
        · exact absurd h32 h.2
        · omega
    · have h32 : s.array_counter ≠ 32 := hfull
      obtain ⟨r, hr, hRr, hm, hk, hem, -⟩ := step_track_rep s ev live hR hc he hv1 hfull
      refine ⟨r, hr, ⟨_, hRr, good_snoc live hG ev.code hrem⟩, by simp [hc, hm],
        by simp [hc, hk], ?_, ?_, ?_, ?_, ?_⟩
      · rw [hem]; exact (emit_type_value ev _).1
      · rw [hem]; exact (emit_type_value ev _).2
      · intro c
        rw [tracked_iff_live _ _ hRr, tracked_iff_live _ _ hR]
        simp only [List.mem_append, List.mem_singleton, hc, he, hv1, true_and]
        constructor
        · rintro (h | h)
          · exact Or.inl ⟨h, by omega⟩
          · right
            refine ⟨?_, h32⟩
            apply Fin.ext
            omega
        · rintro (⟨h, -⟩ | ⟨h, -⟩)
          · exact Or.inl h
          · right; rw [h]
      · intro _; rw [hem]; exact emit_code_mapped ev
      · intro h; exact absurd ⟨hc, he, Or.inl ⟨hv1, h32⟩⟩ h
  by_cases hv0 : ev.value = 0
  · obtain ⟨r, hr, hRr, hm, hk, hem, -⟩ := step_release_rep s ev live hR hc he hv0
    refine ⟨r, hr, ⟨_, hRr, good_strip_clear live hG _⟩, by simp [hc, hm],
      by simp [hc, hk], ?_, ?_, ?_, ?_, ?_⟩
    · rw [hem]; exact (emit_type_value ev _).1
    · rw [hem]; exact (emit_type_value ev _).2
    · intro c
      rw [tracked_iff_live _ _ hRr, tracked_iff_live _ _ hR,
        mem_strip _ (by omega), mem_map_clear _ (by omega)]
      constructor
      · rintro ⟨h, h1⟩
        left
        refine ⟨h, ?_⟩
        rintro ⟨h2, -⟩
        apply h1
        rw [h2]
      · rintro (⟨h, h1⟩ | ⟨-, -, -, h, -⟩)
        · refine ⟨h, ?_⟩
          intro h2
          apply h1
          refine ⟨?_, hc, he, hv0⟩
          apply Fin.ext
          omega
        · omega
    · rintro ⟨-, -, h | h⟩
      · omega
      · rw [hem, if_pos ((tracked_iff_live _ _ hR _).1 h.2)]
        exact emit_code_mapped ev
    · intro h
      have hnt : ¬ ((ev.code : Nat) : Int) + 1 ∈ live := by
        intro hmem
        exact h ⟨hc, he, Or.inr ⟨hv0, (tracked_iff_live _ _ hR _).2 hmem⟩⟩
      rw [hem, if_neg hnt]
      exact emit_self ev
  · have hv2 : ev.value = 2 := by
      have := hc.2
      omega
    refine ⟨_, step_repeat s ev hc hv2, ⟨live, hR, hG⟩, by simp [hc], by simp [hc], rfl, rfl,
      ?_, ?_, fun _ => rfl⟩
    · intro c; simp [hv0, hv1, tracked]
    · rintro ⟨-, -, h | h⟩ <;> omega

theorem last_pr_snoc (c : Fin 65536) (es : List input_event) (e : input_event) :
    last_pr c (es ++ [e]) = if is_pr c e then some e.value else last_pr c es := by
  unfold last_pr
  rw [List.filter_append]
  by_cases h : is_pr c e
  · simp [h, List.filter_cons]
  · simp [h, List.filter_cons]

theorem run_cons (s : State) (e : input_event) (es : List input_event) (r : StepResult)
    (s' : State) (outs : List input_event)
    (h1 : step s e = some r) (h2 : run r.state es = some (s', outs)) :
    run s (e :: es) = some (s', r.emitted :: outs) := by
  simp [run, h1, h2]

theorem run_append (a b : List input_event) :
    ∀ (s s1 s2 : State) (o1 o2 : List input_event),
      run s a = some (s1, o1) → run s1 b = some (s2, o2) →
      run s (a ++ b) = some (s2, o1 ++ o2) := by
  induction a with
  | nil =>
    intro s s1 s2 o1 o2 h1 h2
    simp only [run, Option.some.injEq, Prod.mk.injEq] at h1
    obtain ⟨rfl, rfl⟩ := h1
    simpa using h2
  | cons e es ih =>
    intro s s1 s2 o1 o2 h1 h2
    simp only [run] at h1
    cases hs : step s e with
    | none => simp [hs] at h1
    | some r =>
      simp only [hs] at h1
      cases hr : run r.state es with
      | none => simp [hr] at h1
      | some p =>
        obtain ⟨s1', o1'⟩ := p
        simp only [hr, Option.some.injEq, Prod.mk.injEq] at h1
        obtain ⟨rfl, rfl⟩ := h1
        have := ih r.state s1' s2 o1' o2 hr h2
        simp only [List.cons_append]
        exact run_cons s e (es ++ b) r s2 (o1' ++ o2) hs this

theorem run_total (evs : List input_event) :
    ∀ s, Inv s → ∃ s' outs, run s evs = some (s', outs) ∧ Inv s' ∧ outs.length = evs.length := by
  induction evs with
  | nil => intro s hI; exact ⟨s, [], rfl, hI, rfl⟩
  | cons e es ih =>
    intro s hI
    obtain ⟨r, hr, hIr, -⟩ := step_spec s e hI
    obtain ⟨s', outs, h, hI', hl⟩ := ih r.state hIr
    exact ⟨s', r.emitted :: outs, run_cons s e es r s' outs hr h, hI', by simp [hl]⟩

theorem koy_modifier_bit_eq_zero (c : Fin 65536) (h : c ∉ override_keys) :
    koy_modifier_bit ((c : Nat) : Int) = 0 := by
  simp only [override_keys, List.mem_cons, List.mem_singleton, List.mem_nil_iff, or_false,
    not_or] at h
  obtain ⟨h1, h2, h3, h4⟩ := h
  have e1 : ¬ ((c : Nat) : Int) = 58 := fun e => h1 (Fin.ext (by show (c : Nat) = 58; omega))
  have e2 : ¬ ((c : Nat) : Int) = 43 := fun e => h2 (Fin.ext (by show (c : Nat) = 43; omega))
  have e3 : ¬ ((c : Nat) : Int) = 86 := fun e => h3 (Fin.ext (by show (c : Nat) = 86; omega))
  have e4 : ¬ ((c : Nat) : Int) = 100 := fun e => h4 (Fin.ext (by show (c : Nat) = 100; omega))
  simp [koy_modifier_bit, e1, e2, e3, e4]

theorem koy_stays_zero (k : Int) (e : input_event) (hk : k = 0)
    (h : ¬ (((e.type : Nat) : Int) = EV_KEY ∧ e.code ∈ override_keys)) :
    (if is_key_event e then update_koy_mod_state k e else k) = 0 := by
  by_cases hc : is_key_event e
  · rw [if_pos hc]
    have : e.code ∉ override_keys := fun hm => h ⟨hc.1, hm⟩
    simp [update_koy_mod_state, koy_modifier_bit_eq_zero _ this, hk]
  · rw [if_neg hc, hk]

theorem tracked_remapped (s : State) (c : Fin 65536) (hI : Inv s) (ht : tracked s c) :
    ((c : Nat) : Int) ≠ qwertz2koy c ∧ s.array_counter > 0 := by
  obtain ⟨live, hR, hG⟩ := hI
  rw [tracked_iff_live s live hR] at ht
  constructor
  · rcases hG.2 _ ht with h | ⟨c', h1, h2⟩
    · omega
    · have : ((c : Nat) : Int) = ((c' : Nat) : Int) := by omega
      rw [this]; exact h2
  · rw [hR.2.2]
    have := List.length_pos_of_mem ht
    omega

theorem tracked_elig (s : State) (ev : input_event) (hI : Inv s) (ht : tracked s ev.code)
    (hk : s.koy_mod_state = 0) : elig s ev := by
  obtain ⟨h1, h2⟩ := tracked_remapped s ev.code hI ht
  refine ⟨h1, Or.inr h2, ?_⟩
  rw [update_koy_mod_state_of_remapped _ _ h1, hk]

theorem is_key_event_key (c : Fin 65536) (v : Int) (hv : v = 0 ∨ v = 1 ∨ v = 2) :
    is_key_event (key c v) := by
  refine ⟨rfl, ?_, ?_⟩ <;> simp only [key] <;> omega

/-- From the initial state and without override keys: the run goes through, the
invariant holds, the override mask is zero, and only held keys are in the ledger. -/
theorem reach (evs : List input_event) (hno : NoOverride evs) :
    ∃ s outs, run init evs = some (s, outs) ∧ Inv s ∧ outs.length = evs.length ∧
      s.koy_mod_state = 0 ∧ ∀ c, tracked s c → last_pr c evs = some 1 := by
  induction evs using List.reverseRecOn with
  | nil =>
    refine ⟨init, [], rfl, init_inv, rfl, rfl, ?_⟩
    intro c hc
    simp [tracked, init] at hc
    omega
  | append_singleton es e ih =>
    have hno' : NoOverride es := fun x hx => hno x (List.mem_append_left _ hx)
    have hne := hno e (by simp)
    obtain ⟨s, outs, hrun, hI, hlen, hk, htr⟩ := ih hno'
    obtain ⟨r, hr, hIr, -, hkr, -, -, htrk, -, -⟩ := step_spec s e hI
    have hrun' : run init (es ++ [e]) = some (r.state, outs ++ [r.emitted]) :=
      run_append es [e] init s r.state outs [r.emitted] hrun
        (run_cons s e [] r r.state [] hr rfl)
    refine ⟨r.state, outs ++ [r.emitted], hrun', hIr, by simp [hlen], ?_, ?_⟩
    · rw [hkr]; exact koy_stays_zero _ e hk hne
    · intro c hc
      rw [last_pr_snoc]
      rcases (htrk c).1 hc with ⟨h1, h2⟩ | ⟨h1, h2, -, h4, -⟩
      · by_cases hpr : is_pr c e
        · rw [if_pos hpr]
          rcases hpr.2.2 with h0 | h1'
          · exfalso
            apply h2
            refine ⟨hpr.2.1, ⟨hpr.1, by omega, by omega⟩, ?_, h0⟩
            apply tracked_elig s e hI _ hk
            rw [hpr.2.1]; exact h1
          · rw [h1']
        · rw [if_neg hpr]; exact htr c h1
      · have hpr : is_pr c e := ⟨h2.1, h1, Or.inr h4⟩
        rw [if_pos hpr, h4]

theorem alternating_at (pre post : List input_event) (e : input_event)
    (h : Alternating (pre ++ e :: post)) (hk : ((e.type : Nat) : Int) = EV_KEY) :
    (e.value = 1 → last_pr e.code pre ≠ some 1) ∧
    (e.value = 0 → last_pr e.code pre = some 1) := by
  have hlt : pre.length < (pre ++ e :: post).length := by simp
  have h1 := h ⟨pre.length, hlt⟩
  have hget : (pre ++ e :: post).get ⟨pre.length, hlt⟩ = e := by
    rw [List.get_eq_getElem]
    show (pre ++ e :: post)[pre.length] = e
    rw [List.getElem_append_right (Nat.le_refl _)]
    simp
  have htake : (pre ++ e :: post).take pre.length = pre := by simp
  rw [hget] at h1
  simp only [htake] at h1
  exact h1 hk

/-- Records that are not a press or release of `c` leave the membership of `c` in the
ledger as it is. -/
theorem run_frame (c : Fin 65536) (mid : List input_event) :
    ∀ s, Inv s → s.koy_mod_state = 0 → NoOverride mid → (∀ e ∈ mid, ¬ is_pr c e) →
      ∃ s2 o2, run s mid = some (s2, o2) ∧ Inv s2 ∧ s2.koy_mod_state = 0 ∧
        o2.length = mid.length ∧ (tracked s2 c ↔ tracked s c) := by
  induction mid with
  | nil => intro s hI hk _ _; exact ⟨s, [], rfl, hI, hk, rfl, Iff.rfl⟩
  | cons e es ih =>
    intro s hI hk hno hmid
    obtain ⟨r, hr, hIr, -, hkr, -, -, htrk, -, -⟩ := step_spec s e hI
    have hkr0 : r.state.koy_mod_state = 0 := by
      rw [hkr]; exact koy_stays_zero _ e hk (hno e (by simp))
    have hno' : NoOverride es := fun x hx => hno x (List.mem_cons_of_mem _ hx)
    have hmid' : ∀ x ∈ es, ¬ is_pr c x := fun x hx => hmid x (List.mem_cons_of_mem _ hx)
    obtain ⟨s2, o2, h2, hI2, hk2, hl2, ht2⟩ := ih r.state hIr hkr0 hno' hmid'
    have hnpr : ¬ is_pr c e := hmid e (by simp)
    refine ⟨s2, r.emitted :: o2, run_cons s e es r s2 o2 hr h2, hI2, hk2, by simp [hl2], ?_⟩
    rw [ht2, htrk c]
    constructor
    · rintro (⟨h, -⟩ | ⟨h1, h2, -, h4, -⟩)
      · exact h
      · exact absurd ⟨h2.1, h1, Or.inr h4⟩ hnpr
    · intro h
      left
      refine ⟨h, ?_⟩
      rintro ⟨h1, h2, -, h4⟩
      exact hnpr ⟨h2.1, h1, Or.inl h4⟩

/-- A press of `c` and the release that ends it, in a sequence from the initial state
without override keys in which presses and releases alternate: either the press is
tracked and both records are emitted with the mapped code, or it is not and both are
emitted unchanged; after the release `c` is not in the ledger. -/
theorem pair_core (pre mid post : List input_event) (c : Fin 65536)
    (hno : NoOverride (pre ++ key c 1 :: (mid ++ key c 0 :: post)))
    (halt : Alternating (pre ++ key c 1 :: (mid ++ key c 0 :: post)))
    (hmid : ∀ e ∈ mid, ¬ is_pr c e) :
    ∃ s1 o1 rP s2 o2 rR s3 o3,
      run init pre = some (s1, o1) ∧ step s1 (key c 1) = some rP ∧
      run rP.state mid = some (s2, o2) ∧ step s2 (key c 0) = some rR ∧
      run rR.state post = some (s3, o3) ∧
      run init (pre ++ key c 1 :: (mid ++ key c 0 :: post)) =
        some (s3, o1 ++ rP.emitted :: (o2 ++ rR.emitted :: o3)) ∧
      o1.length = pre.length ∧ o2.length = mid.length ∧ o3.length = post.length ∧
      ((tracked rP.state c ∧ ((rP.emitted.code : Nat) : Int) = qwertz2koy c ∧
          tracked s2 c ∧ ((rR.emitted.code : Nat) : Int) = qwertz2koy c) ∨
       (¬ tracked rP.state c ∧ rP.emitted = key c 1 ∧
          ¬ tracked s2 c ∧ rR.emitted = key c 0)) ∧
      ¬ tracked rR.state c ∧
      (rP.emitted.type = 1 ∧ rP.emitted.value = 1 ∧
        rR.emitted.type = 1 ∧ rR.emitted.value = 0) := by
  have hno1 : NoOverride pre := fun x hx => hno x (List.mem_append_left _ hx)
  have hnoP := hno (key c 1) (by simp)
  have hno2 : NoOverride mid := fun x hx => hno x (by simp [hx])
  have hnoR := hno (key c 0) (by simp)
  obtain ⟨s1, o1, hrun1, hI1, hl1, hk1, htr1⟩ := reach pre hno1
  have hnt1 : ¬ tracked s1 c := fun h =>
    (alternating_at pre _ (key c 1) halt rfl).1 rfl (htr1 c h)
  have hkeyP : is_key_event (key c 1) := is_key_event_key c 1 (by omega)
  have hkeyR : is_key_event (key c 0) := is_key_event_key c 0 (by omega)
  obtain ⟨rP, hP, hIP, -, hkP, htyP, hvalP, htrP, hremP, hnremP⟩ := step_spec s1 (key c 1) hI1
  have hkP0 : rP.state.koy_mod_state = 0 := by
    rw [hkP]; exact koy_stays_zero _ _ hk1 hnoP
  obtain ⟨s2, o2, hrun2, hI2, hk2, hl2, ht2⟩ := run_frame c mid rP.state hIP hkP0 hno2 hmid
  obtain ⟨rR, hR, hIR, -, -, htyR, hvalR, htrR, hremR, hnremR⟩ := step_spec s2 (key c 0) hI2
  obtain ⟨s3, o3, hrun3, -, hl3⟩ := run_total post rR.state hIR
  have hntR : ¬ tracked rR.state c := by
    intro h
    rcases (htrR c).1 h with ⟨h1, h2⟩ | ⟨-, -, -, h4, -⟩
    · exact h2 ⟨rfl, hkeyR, tracked_elig s2 (key c 0) hI2 h1 hk2, rfl⟩
    · simp [key] at h4
  refine ⟨s1, o1, rP, s2, o2, rR, s3, o3, hrun1, hP, hrun2, hR, hrun3, ?_, hl1, hl2, hl3, ?_,
    hntR, htyP, hvalP, htyR, hvalR⟩
  · apply run_append pre _ init s1 s3 o1 _ hrun1
    apply run_cons s1 _ _ rP s3 _ hP
    apply run_append mid _ rP.state s2 s3 o2 _ hrun2
    exact run_cons s2 _ _ rR s3 _ hR hrun3
  · by_cases hrem : remaps s1 (key c 1)
    · left
      have htP : tracked rP.state c := by
        rw [htrP c]
        rcases hrem with ⟨h1, h2, ⟨h3, h4⟩ | ⟨h3, -⟩⟩
        · exact Or.inr ⟨rfl, h1, h2, h3, h4⟩
        · simp [key] at h3
      have ht2' : tracked s2 c := ht2.2 htP
      exact ⟨htP, hremP hrem, ht2',
        hremR ⟨hkeyR, tracked_elig s2 (key c 0) hI2 ht2' hk2, Or.inr ⟨rfl, ht2'⟩⟩⟩
    · right
      have htP : ¬ tracked rP.state c := by
        rw [htrP c]
        rintro (⟨h, -⟩ | ⟨-, h1, h2, h3, h4⟩)
        · exact hnt1 h
        · exact hrem ⟨h1, h2, Or.inl ⟨h3, h4⟩⟩
      have ht2' : ¬ tracked s2 c := fun h => htP (ht2.1 h)
      refine ⟨htP, hnremP hrem, ht2', hnremR ?_⟩
      rintro ⟨-, -, ⟨h, -⟩ | ⟨-, h⟩⟩
      · simp [key] at h
      · exact ht2' h

set_option maxRecDepth 100000 in
theorem or_table : ∀ m ∈ masks, ∀ b ∈ bits, ∀ b' ∈ bits,
    c_or m b ∈ masks ∧ (c_and (c_or m b) b' ≠ 0 ↔ b' = b ∨ c_and m b' ≠ 0) := by
  decide

set_option maxRecDepth 100000 in
theorem andn_table : ∀ m ∈ masks, ∀ b ∈ bits, ∀ b' ∈ bits,
    c_and m (c_not b) ∈ masks ∧
      (c_and (c_and m (c_not b)) b' ≠ 0 ↔ b' ≠ b ∧ c_and m b' ≠ 0) := by
  decide

theorem mem_masks (m : Int) : m ∈ masks ↔ 0 ≤ m ∧ m ≤ 15 := by
  simp only [masks, List.mem_cons, List.mem_singleton, List.mem_nil_iff, or_false]
  omega

theorem mem_bits (b : Int) : b ∈ bits ↔ b = 1 ∨ b = 2 ∨ b = 4 ∨ b = 8 := by
  simp [bits]

theorem upd_spec (m : Int) (hm : m ∈ masks) (b : Int) (hb : b = 0 ∨ b ∈ bits) (b' : Int)
    (hb' : b' ∈ bits) (v : Int) :
    upd b v m ∈ masks ∧
      (c_and (upd b v m) b' ≠ 0 ↔
        (b' = b ∧ (v = 0 ∨ v = 1) ∧ v = 1) ∨ (¬ (b' = b ∧ (v = 0 ∨ v = 1)) ∧ c_and m b' ≠ 0)) := by
  rcases hb with hb | hb
  · subst hb
    have hne : b' ≠ 0 := by
      rw [mem_bits] at hb'
      omega
    simp [upd, hm, hne]
  · have hpos : b > 0 := by
      rw [mem_bits] at hb
      omega
    by_cases h1 : v = 1
    · have := or_table m hm b hb b' hb'
      simp only [upd, if_pos hpos, if_pos h1]
      refine ⟨this.1, ?_⟩
      rw [this.2]
      constructor
      · rintro (h | h)
        · exact Or.inl ⟨h, Or.inr h1, h1⟩
        · by_cases hbb : b' = b
          · exact Or.inl ⟨hbb, Or.inr h1, h1⟩
          · exact Or.inr ⟨fun hh => hbb hh.1, h⟩
      · rintro (⟨h, -⟩ | ⟨-, h⟩)
        · exact Or.inl h
        · exact Or.inr h
    · by_cases h0 : v = 0
      · have := andn_table m hm b hb b' hb'
        simp only [upd, if_pos hpos, if_neg h1, if_pos h0]
        refine ⟨this.1, ?_⟩
        rw [this.2]
        constructor
        · rintro ⟨h, h'⟩
          exact Or.inr ⟨fun hh => h hh.1, h'⟩
        · rintro (⟨-, -, h⟩ | ⟨h, h'⟩)
          · exact absurd h h1
          · exact ⟨fun hh => h ⟨hh, Or.inl h0⟩, h'⟩
      · simp only [upd, if_pos hpos, if_neg h1, if_neg h0]
        refine ⟨hm, ?_⟩
        constructor
        · intro h
          refine Or.inr ⟨?_, h⟩
          rintro ⟨-, h | h⟩
          · exact h0 h
          · exact h1 h
        · rintro (⟨-, -, h⟩ | ⟨-, h⟩)
          · exact absurd h h1
          · exact h

/-- One loop iteration and one bit of a mask, for a bit function `bit` with key table
`tbl`. -/
theorem mask_step (bit : Int → Int) (tbl : List (Fin 65536 × Int))
    (H1 : ∀ c : Fin 65536, bit ((c : Nat) : Int) = 0 ∨ bit ((c : Nat) : Int) ∈ bits)
    (H2 : ∀ p ∈ tbl, bit ((p.1 : Nat) : Int) = p.2 ∧ p.2 ∈ bits)
    (H3 : ∀ p ∈ tbl, ∀ c : Fin 65536, bit ((c : Nat) : Int) = p.2 → c = p.1)
    (m : Int) (hm : m ∈ masks) (e : input_event) :
    (if is_key_event e then upd (bit e.code) e.value m else m) ∈ masks ∧
    ∀ p ∈ tbl, (c_and (if is_key_event e then upd (bit e.code) e.value m else m) p.2 ≠ 0 ↔
      (is_pr p.1 e ∧ e.value = 1) ∨ (¬ is_pr p.1 e ∧ c_and m p.2 ≠ 0)) := by
  by_cases hc : is_key_event e
  · simp only [if_pos hc]
    refine ⟨(upd_spec m hm _ (H1 e.code) 1 (by decide) e.value).1, ?_⟩
    intro p hp
    have hs := (upd_spec m hm _ (H1 e.code) p.2 (H2 p hp).2 e.value).2
    rw [hs]
    have hiff : p.2 = bit ((e.code : Nat) : Int) ↔ e.code = p.1 := by
      constructor
      · intro h; exact H3 p hp e.code h.symm
      · intro h; rw [h]; exact (H2 p hp).1.symm
    have hpr : is_pr p.1 e ↔ (p.2 = bit ((e.code : Nat) : Int) ∧ (e.value = 0 ∨ e.value = 1)) := by
      rw [hiff]
      exact ⟨fun h => ⟨h.2.1, h.2.2⟩, fun h => ⟨hc.1, h.1, h.2⟩⟩
    rw [hpr]
    constructor
    · rintro (⟨h1, h2, h3⟩ | h)
      · exact Or.inl ⟨⟨h1, h2⟩, h3⟩
      · exact Or.inr h
    · rintro (⟨⟨h1, h2⟩, h3⟩ | h)
      · exact Or.inl ⟨h1, h2, h3⟩
      · exact Or.inr h
  · simp only [if_neg hc]
    refine ⟨hm, ?_⟩
    intro p _
    have hnpr : ¬ is_pr p.1 e := by
      rintro ⟨h1, -, h3⟩
      exact hc ⟨h1, by omega, by omega⟩
    simp [hnpr]

theorem modifier_bit_H1 (c : Fin 65536) :
    modifier_bit ((c : Nat) : Int) = 0 ∨ modifier_bit ((c : Nat) : Int) ∈ bits := by
  unfold modifier_bit
  split_ifs <;> simp [bits]

theorem modifier_bit_H2 : ∀ p ∈ trigger_bits,
    modifier_bit ((p.1 : Nat) : Int) = p.2 ∧ p.2 ∈ bits := by
  decide

theorem modifier_bit_H3 : ∀ p ∈ trigger_bits, ∀ c : Fin 65536,
    modifier_bit ((c : Nat) : Int) = p.2 → c = p.1 := by
  intro p hp c
  simp only [trigger_bits, List.mem_cons, List.mem_singleton, List.mem_nil_iff, or_false] at hp
  unfold modifier_bit
  rcases hp with rfl | rfl | rfl | rfl
  · show _ → c = 29
    split_ifs with h1 h2 h3 h4 <;> intro h <;> omega
  · show _ → c = 97
    split_ifs with h1 h2 h3 h4 <;> intro h <;> omega
  · show _ → c = 56
    split_ifs with h1 h2 h3 h4 <;> intro h <;> omega
  · show _ → c = 125
    split_ifs with h1 h2 h3 h4 <;> intro h <;> omega

theorem koy_modifier_bit_H1 (c : Fin 65536) :
    koy_modifier_bit ((c : Nat) : Int) = 0 ∨ koy_modifier_bit ((c : Nat) : Int) ∈ bits := by
  unfold koy_modifier_bit
  split_ifs <;> simp [bits]

theorem koy_modifier_bit_H2 : ∀ p ∈ override_bits,
    koy_modifier_bit ((p.1 : Nat) : Int) = p.2 ∧ p.2 ∈ bits := by
  decide

theorem koy_modifier_bit_H3 : ∀ p ∈ override_bits, ∀ c : Fin 65536,
    koy_modifier_bit ((c : Nat) : Int) = p.2 → c = p.1 := by
  intro p hp c
  simp only [override_bits, List.mem_cons, List.mem_singleton, List.mem_nil_iff, or_false] at hp
  unfold koy_modifier_bit
  rcases hp with rfl | rfl | rfl | rfl
  · show _ → c = 58
    split_ifs with h1 h2 h3 h4 <;> intro h <;> omega
  · show _ → c = 43
    split_ifs with h1 h2 h3 h4 <;> intro h <;> omega
  · show _ → c = 86
    split_ifs with h1 h2 h3 h4 <;> intro h <;> omega
  · show _ → c = 100
    split_ifs with h1 h2 h3 h4 <;> intro h <;> omega

/-- From the initial state, whatever the records: the run goes through, the invariant
holds, and each bit of each mask tells whether its key is held. -/
theorem reach_masks (evs : List input_event) :
    ∃ s outs, run init evs = some (s, outs) ∧ Inv s ∧ outs.length = evs.length ∧
      s.mod_state ∈ masks ∧ s.koy_mod_state ∈ masks ∧
      (∀ p ∈ trigger_bits, c_and s.mod_state p.2 ≠ 0 ↔ last_pr p.1 evs = some 1) ∧
      (∀ p ∈ override_bits, c_and s.koy_mod_state p.2 ≠ 0 ↔ last_pr p.1 evs = some 1) := by
  induction evs using List.reverseRecOn with
  | nil =>
    refine ⟨init, [], rfl, init_inv, rfl, by decide, by decide, ?_, ?_⟩
    · intro p hp
      have : c_and init.mod_state p.2 = 0 :=
        (by decide : ∀ p ∈ trigger_bits, c_and init.mod_state p.2 = 0) p hp
      simp [this, last_pr]
    · intro p hp
      have : c_and init.koy_mod_state p.2 = 0 :=
        (by decide : ∀ p ∈ override_bits, c_and init.koy_mod_state p.2 = 0) p hp
      simp [this, last_pr]
  | append_singleton es e ih =>
    obtain ⟨s, outs, hrun, hI, hlen, hm, hk, hmb, hkb⟩ := ih
    obtain ⟨r, hr, hIr, hmr, hkr, -⟩ := step_spec s e hI
    have hrun' : run init (es ++ [e]) = some (r.state, outs ++ [r.emitted]) :=
      run_append es [e] init s r.state outs [r.emitted] hrun
        (run_cons s e [] r r.state [] hr rfl)
    have hM := mask_step modifier_bit trigger_bits modifier_bit_H1 modifier_bit_H2
      modifier_bit_H3 s.mod_state hm e
    have hK := mask_step koy_modifier_bit override_bits koy_modifier_bit_H1
      koy_modifier_bit_H2 koy_modifier_bit_H3 s.koy_mod_state hk e
    have key_step : ∀ (c : Fin 65536) (x : Prop), (x ↔ last_pr c es = some 1) →
        (((is_pr c e ∧ e.value = 1) ∨ (¬ is_pr c e ∧ x)) ↔
          last_pr c (es ++ [e]) = some 1) := by
      intro c x hx
      rw [last_pr_snoc]
      by_cases hpr : is_pr c e
      · simp [hpr]
      · simp [hpr, hx]
    refine ⟨r.state, outs ++ [r.emitted], hrun', hIr, by simp [hlen], ?_, ?_, ?_, ?_⟩
    · rw [hmr]; exact hM.1
    · rw [hkr]; exact hK.1
    · intro p hp
      rw [hmr]
      exact (hM.2 p hp).trans (key_step p.1 _ (hmb p hp))
    · intro p hp
      rw [hkr]
      exact (hK.2 p hp).trans (key_step p.1 _ (hkb p hp))

theorem last_pr_mem (c : Fin 65536) (evs : List input_event) (v : Int)
    (h : last_pr c evs = some v) : ∃ e ∈ evs, e.code = c := by
  unfold last_pr at h
  cases hl : (evs.filter (fun e => decide (is_pr c e))).getLast? with
  | none => simp [hl] at h
  | some e =>
    have hm := List.mem_of_getLast?_eq_some hl
    rw [List.mem_filter] at hm
    exact ⟨e, hm.1, (of_decide_eq_true hm.2).2.1⟩

theorem all_released (evs : List input_event) (h : AllReleased evs) (c : Fin 65536) :
    last_pr c evs ≠ some 1 := by
  intro hc
  obtain ⟨e, he, rfl⟩ := last_pr_mem c evs 1 hc
  exact h e he hc

theorem inv_empty (s : State) (hI : Inv s) (h : ∀ c, ¬ tracked s c) :
    s.array = List.replicate 32 0 ∧ s.array_counter = 0 := by
  obtain ⟨live, hR, hG⟩ := hI
  have hz : ∀ v ∈ live, v = 0 := by
    intro v hv
    rcases hG.2 v hv with h0 | ⟨c, hc, -⟩
    · exact h0
    · exact absurd ((tracked_iff_live s live hR c).2 (hc ▸ hv)) (h c)
  have hnil : live = [] := by
    by_contra hne
    apply hG.1
    rw [List.getLast?_eq_getLast _ hne, hz _ (List.getLast_mem hne)]
  subst hnil
  exact ⟨by simpa using hR.1, by simpa using hR.2.2⟩

theorem mask_zero : ∀ m ∈ masks, ∀ tbl ∈ [trigger_bits, override_bits],
    (∀ p ∈ tbl, c_and m p.2 = 0) → m = 0 := by
  decide

theorem modifier_bit_eq_zero (c : Fin 65536) (h : c ∉ trigger_keys) :
    modifier_bit ((c : Nat) : Int) = 0 := by
  simp only [trigger_keys, List.mem_cons, List.mem_singleton, List.mem_nil_iff, or_false,
    not_or] at h
  obtain ⟨h1, h2, h3, h4⟩ := h
  have e1 : ¬ ((c : Nat) : Int) = 29 := fun e => h1 (Fin.ext (by show (c : Nat) = 29; omega))
  have e2 : ¬ ((c : Nat) : Int) = 97 := fun e => h2 (Fin.ext (by show (c : Nat) = 97; omega))
  have e3 : ¬ ((c : Nat) : Int) = 56 := fun e => h3 (Fin.ext (by show (c : Nat) = 56; omega))
  have e4 : ¬ ((c : Nat) : Int) = 125 := fun e => h4 (Fin.ext (by show (c : Nat) = 125; omega))
  simp [modifier_bit, e1, e2, e3, e4]

theorem masks_frame (e : input_event)
    (h : ((e.type : Nat) : Int) ≠ EV_KEY ∨ (e.value ≠ 0 ∧ e.value ≠ 1) ∨
      (e.code ∉ trigger_keys ∧ e.code ∉ override_keys)) (m k : Int) :
    (if is_key_event e then update_mod_state m e else m) = m ∧
    (if is_key_event e then update_koy_mod_state k e else k) = k := by
  by_cases hc : is_key_event e
  · simp only [if_pos hc]
    rcases h with h | h | h
    · exact absurd hc.1 h
    · simp [update_mod_state, update_koy_mod_state, h.1, h.2]
    · simp [update_mod_state, update_koy_mod_state, modifier_bit_eq_zero _ h.1,
        koy_modifier_bit_eq_zero _ h.2]
  · simp [hc]

theorem emit_key (c : Fin 65536) (v : Int) (code : Int) :
    emit (key c v).type code (key c v).value = key (narrow16 code) v := by
  simp only [emit, key, narrow16_val]

theorem step_first_press (b : Int) (hb : b > 0) (c : Fin 65536)
    (hc : ((c : Nat) : Int) ≠ qwertz2koy c) :
    step { mod_state := b, koy_mod_state := 0, array_counter := 0,
           array := List.replicate 32 0 } (key c 1) =
      some { state := { mod_state := b, koy_mod_state := 0, array_counter := 1,
                        array := (((c : Nat) : Int) + 1) :: List.replicate 31 0 },
             emitted := key (narrow16 (qwertz2koy c)) 1, warning := false } := by
  have hk : is_key_event (key c 1) := is_key_event_key c 1 (by omega)
  have hc1 : (((key c 1).code : Nat) : Int) ≠ qwertz2koy (key c 1).code := hc
  have hm := update_mod_state_of_remapped b (key c 1) hc1
  have hko := update_koy_mod_state_of_remapped 0 (key c 1) hc1
  have he : eligible (update_mod_state b (key c 1)) (update_koy_mod_state 0 (key c 1)) 0
      (key c 1) := by
    rw [hm, hko]
    exact ⟨hc1, Or.inl hb, rfl⟩
  rw [step_press_track _ _ hk he rfl (show (0 : Int) ≠ MAX_LENGTH by decide)]
  dsimp only
  rw [hm, hko, emit_key]
  rfl

theorem step_last_release (c : Fin 65536) (hc : ((c : Nat) : Int) ≠ qwertz2koy c) :
    step { mod_state := 0, koy_mod_state := 0, array_counter := 1,
           array := (((c : Nat) : Int) + 1) :: List.replicate 31 0 } (key c 0) =
      some { state := init, emitted := key (narrow16 (qwertz2koy c)) 0, warning := false } := by
  have hk : is_key_event (key c 0) := is_key_event_key c 0 (by omega)
  have hc1 : (((key c 0).code : Nat) : Int) ≠ qwertz2koy (key c 0).code := hc
  have hm := update_mod_state_of_remapped 0 (key c 0) hc1
  have hko := update_koy_mod_state_of_remapped 0 (key c 0) hc1
  have he : eligible (update_mod_state 0 (key c 0)) (update_koy_mod_state 0 (key c 0)) 1
      (key c 0) := by
    rw [hm, hko]
    exact ⟨hc1, Or.inr (by decide), rfl⟩
  rw [step_release _ _ hk he rfl]
  dsimp only
  rw [hm, hko]
  have hscan : scan_loop (((key c 0).code : Nat) : Int) (1 : Int).toNat 0
      ((((c : Nat) : Int) + 1) :: List.replicate 31 0) (((key c 0).code : Nat) : Int) =
      some (List.replicate 32 0, qwertz2koy c) := by
    show scan_loop ((c : Nat) : Int) 1 0 _ _ = _
    simp [scan_loop, rd, wr, List.replicate, key]
  rw [hscan]
  dsimp only
  have htrim : trim_loop (List.replicate 32 0) (1 : Int).toNat (1 - 1) 1 = some 0 := by decide
  rw [htrim, emit_key]
  rfl

theorem trigger_fixed : ∀ y ∈ trigger_keys, ¬ ((y : Nat) : Int) ≠ qwertz2koy y := by
  intro y hy
  simp only [trigger_keys, List.mem_cons, List.mem_singleton, List.mem_nil_iff, or_false] at hy
  rcases hy with rfl | rfl | rfl | rfl <;> decide

theorem trigger_updates : ∀ x ∈ trigger_keys,
    update_mod_state 0 (key x 1) = modifier_bit x ∧
    update_koy_mod_state 0 (key x 1) = 0 ∧
    update_mod_state (modifier_bit x) (key x 0) = 0 ∧
    update_koy_mod_state 0 (key x 0) = 0 ∧ modifier_bit x > 0 := by
  intro x hx
  simp only [trigger_keys, List.mem_cons, List.mem_singleton, List.mem_nil_iff, or_false] at hx
  rcases hx with rfl | rfl | rfl | rfl <;> decide

theorem step_trigger (t : Fin 65536) (ht : t ∈ trigger_keys) (a : List Int) (n : Int) :
    step { mod_state := 0, koy_mod_state := 0, array_counter := n, array := a } (key t 1) =
      some { state := { mod_state := modifier_bit t, koy_mod_state := 0, array_counter := n,
                        array := a },
             emitted := key t 1, warning := false } ∧
    step { mod_state := modifier_bit t, koy_mod_state := 0, array_counter := n, array := a }
        (key t 0) =
      some { state := { mod_state := 0, koy_mod_state := 0, array_counter := n, array := a },
             emitted := key t 0, warning := false } ∧
    modifier_bit t > 0 := by
  have hfix : ∀ x ∈ trigger_keys, ∀ v : Int, ¬ eligible (update_mod_state 0 (key x v))
      (update_koy_mod_state 0 (key x v)) n (key x v) ∧
      ¬ eligible (update_mod_state (modifier_bit x) (key x v))
        (update_koy_mod_state 0 (key x v)) n (key x v) := by
    intro x hx v
    have : ¬ (((key x v).code : Nat) : Int) ≠ qwertz2koy (key x v).code :=
      trigger_fixed x hx
    exact ⟨fun h => this h.1, fun h => this h.1⟩
  obtain ⟨h1, h2, h3, h4, h5⟩ := trigger_updates t ht
  refine ⟨?_, ?_, h5⟩
  · rw [step_ineligible { mod_state := 0, koy_mod_state := 0, array_counter := n, array := a }
      (key t 1) (is_key_event_key t 1 (by omega)) (hfix t ht 1).1]
    dsimp only
    rw [h1, h2]
  · rw [step_ineligible
      { mod_state := modifier_bit t, koy_mod_state := 0, array_counter := n, array := a }
      (key t 0) (is_key_event_key t 0 (by omega)) (hfix t ht 0).2]
    dsimp only
    rw [h3, h4]

set_option maxRecDepth 100000 in
theorem full_state_reached :
    run init (key 29 1 :: fill_keys.map (fun c => key c 1)) =
      some (full_state, key 29 1 :: fill_keys.map
        (fun c => key (narrow16 (qwertz2koy ((c : Nat) : Int))) 1)) := by
  decide

theorem alternating_accepts : Alternating [key 29 1, key 46 1, key 29 2, key 29 0, key 46 0] := by
  decide

theorem alternating_rejects_double_press : ¬ Alternating [key 46 1, key 46 2, key 46 1] := by
  decide

theorem alternating_rejects_orphan_release : ¬ Alternating [key 29 1, key 46 0] := by
  decide

theorem last_pr_io_snoc (c : Fin 65536) (es outs : List input_event) (e o : input_event)
    (hl : outs.length = es.length) :
    last_pr_io c (es ++ [e]) (outs ++ [o]) =
      if is_pr c e then some (e, o) else last_pr_io c es outs := by
  unfold last_pr_io
  rw [List.zip_append hl.symm, List.filter_append]
  by_cases h : is_pr c e
  · simp [h, List.filter_cons]
  · simp [h, List.filter_cons]

theorem held_remapped_snoc (c : Fin 65536) (es outs : List input_event) (e o : input_event)
    (hl : outs.length = es.length) :
    held_remapped c (es ++ [e]) (outs ++ [o]) ↔
      (is_pr c e ∧ e.value = 1 ∧ o.code ≠ e.code) ∨ (¬ is_pr c e ∧ held_remapped c es outs) := by
  unfold held_remapped
  rw [last_pr_io_snoc c es outs e o hl]
  by_cases h : is_pr c e
  · simp [h]
  · simp [h]

theorem alternating_of_snoc (es : List input_event) (e : input_event)
    (h : Alternating (es ++ [e])) : Alternating es := by
  intro i
  have hlt : (i : Nat) < (es ++ [e]).length := by
    have := i.isLt
    simp only [List.length_append, List.length_singleton]
    omega
  have h1 := h ⟨i, hlt⟩
  have hget : (es ++ [e]).get ⟨i, hlt⟩ = es.get i := by
    rw [List.get_eq_getElem, List.get_eq_getElem]
    exact List.getElem_append_left i.isLt
  have htake : (es ++ [e]).take i = es.take i := by
    rw [List.take_append_of_le_length (Nat.le_of_lt i.isLt)]
  rw [hget] at h1
  simp only [htake] at h1
  exact h1

theorem filter_getLast_split (p : input_event → Bool) (l : List input_event) (e : input_event)
    (h : (l.filter p).getLast? = some e) :
    ∃ pre mid, l = pre ++ e :: mid ∧ ∀ x ∈ mid, p x = false := by
  induction l using List.reverseRecOn with
  | nil => simp at h
  | append_singleton l x ih =>
    rw [List.filter_append] at h
    by_cases hx : p x = true
    · refine ⟨l, [], ?_, by simp⟩
      simp only [List.filter_cons, hx, if_true, List.filter_nil] at h
      rw [List.getLast?_concat] at h
      simp only [Option.some.injEq] at h
      rw [h]
    · simp only [List.filter_cons, hx, List.filter_nil, List.append_nil] at h
      obtain ⟨pre, mid, hl, hmid⟩ := ih (by simpa using h)
      refine ⟨pre, mid ++ [x], by simp [hl], ?_⟩
      intro y hy
      rcases List.mem_append.1 hy with hy | hy
      · exact hmid y hy
      · simp only [List.mem_singleton] at hy
        rw [hy]
        simpa using hx

/-- In an alternating sequence every release of `c` has its press: the last press or
release record of `c` before it is a press. -/
theorem release_has_press (pre2 post : List input_event) (c : Fin 65536)
    (halt : Alternating (pre2 ++ key c 0 :: post)) :
    ∃ pre mid, pre2 = pre ++ key c 1 :: mid ∧ ∀ e ∈ mid, ¬ is_pr c e := by
  have h1 := (alternating_at pre2 post (key c 0) halt rfl).2 rfl
  have hcode : (key c 0).code = c := rfl
  rw [hcode] at h1
  unfold last_pr at h1
  cases hl : (pre2.filter (fun e => decide (is_pr c e))).getLast? with
  | none => simp [hl] at h1
  | some e =>
    simp only [hl, Option.map_some', Option.some.injEq] at h1
    have hm := List.mem_of_getLast?_eq_some hl
    rw [List.mem_filter] at hm
    obtain ⟨hty, hc, -⟩ := of_decide_eq_true hm.2
    have he : e = key c 1 := by
      cases e with
      | mk ty co va =>
        simp only [key, input_event.mk.injEq]
        refine ⟨?_, hc, h1⟩
        apply Fin.ext
        have : ((ty : Nat) : Int) = 1 := hty
        show (ty : Nat) = 1
        omega
    obtain ⟨pre, mid, hsplit, hmid⟩ := filter_getLast_split _ pre2 e hl
    refine ⟨pre, mid, by rw [hsplit, he], ?_⟩
    intro x hx
    simpa using hmid x hx

theorem first_split (p : input_event → Prop) (l : List input_event) :
    (∀ x ∈ l, ¬ p x) ∨ ∃ mid e post, l = mid ++ e :: post ∧ p e ∧ ∀ x ∈ mid, ¬ p x := by
  induction l with
  | nil => left; simp
  | cons a l ih =>
    by_cases ha : p a
    · right; exact ⟨[], a, l, rfl, ha, by simp⟩
    · rcases ih with h | ⟨mid, e, post, hl, he, hmid⟩
      · left
        intro x hx
        rcases List.mem_cons.1 hx with rfl | hx
        · exact ha
        · exact h x hx
      · right
        refine ⟨a :: mid, e, post, by simp [hl], he, ?_⟩
        intro x hx
        rcases List.mem_cons.1 hx with rfl | hx
        · exact ha
        · exact hmid x hx

theorem last_pr_press_then_others (c : Fin 65536) (pre mid : List input_event)
    (hmid : ∀ e ∈ mid, ¬ is_pr c e) : last_pr c (pre ++ key c 1 :: mid) = some 1 := by
  induction mid using List.reverseRecOn with
  | nil =>
    have hp : is_pr c (key c 1) := ⟨rfl, rfl, Or.inr rfl⟩
    rw [last_pr_snoc, if_pos hp]
    rfl
  | append_singleton mid x ih =>
    have e1 : pre ++ key c 1 :: (mid ++ [x]) = (pre ++ key c 1 :: mid) ++ [x] := by simp
    rw [e1, last_pr_snoc, if_neg (hmid x (by simp))]
    exact ih (fun e he => hmid e (List.mem_append_left _ he))

/-- In an alternating sequence at whose end no key is held, every press of `c` has the
release that ends it: the first press or release record of `c` after it is a release. -/
theorem press_has_release (pre rest : List input_event) (c : Fin 65536)
    (halt : Alternating (pre ++ key c 1 :: rest))
    (hrel : AllReleased (pre ++ key c 1 :: rest)) :
    ∃ mid post, rest = mid ++ key c 0 :: post ∧ ∀ e ∈ mid, ¬ is_pr c e := by
  rcases first_split (is_pr c) rest with h | ⟨mid, e, post, hl, he, hmid⟩
  · exfalso
    exact all_released _ hrel c (last_pr_press_then_others c pre rest h)
  · subst hl
    obtain ⟨hty, hc, hv⟩ := he
    rcases hv with h0 | h1
    · refine ⟨mid, post, ?_, hmid⟩
      have he : e = key c 0 := by
        cases e with
        | mk ty co va =>
          simp only [key, input_event.mk.injEq]
          refine ⟨?_, hc, h0⟩
          apply Fin.ext
          have : ((ty : Nat) : Int) = 1 := hty
          show (ty : Nat) = 1
          omega
      rw [he]
    · exfalso
      have e1 : pre ++ key c 1 :: (mid ++ e :: post) = (pre ++ key c 1 :: mid) ++ e :: post := by
        simp
      rw [e1] at halt
      have := (alternating_at _ post e halt hty).1 h1
      rw [hc] at this
      exact this (last_pr_press_then_others c pre mid hmid)

theorem update_mod_state_repeat (m : Int) (ev : input_event) (hv : ev.value = 2) :
    update_mod_state m ev = m := by
  simp [update_mod_state, hv]

theorem update_koy_mod_state_repeat (m : Int) (ev : input_event) (hv : ev.value = 2) :
    update_koy_mod_state m ev = m := by
  simp [update_koy_mod_state, hv]

theorem table_injective : ∀ a ∈ table_sources, ∀ b ∈ table_sources,
    qwertz2koy a = qwertz2koy b → a = b := by
  decide

theorem table_closed : ∀ a ∈ table_sources, qwertz2koy a ∈ table_sources := by
  decide

theorem table_onto : ∀ b ∈ table_sources, ∃ a ∈ table_sources, qwertz2koy a = b := by
  decide

theorem qwertz2koy_inj (a b : Int) (h : qwertz2koy a = qwertz2koy b) : a = b := by
  by_cases ha : a ∈ table_sources
  · by_cases hb : b ∈ table_sources
    · exact table_injective a ha b hb h
    · rw [qwertz2koy_off_table b hb] at h
      exact absurd (h ▸ table_closed a ha) hb
  · by_cases hb : b ∈ table_sources
    · rw [qwertz2koy_off_table a ha] at h
      exact absurd (h.symm ▸ table_closed b hb) ha
    · rw [qwertz2koy_off_table a ha, qwertz2koy_off_table b hb] at h
      exact h

theorem modifier_fixed : ∀ m ∈ modifier_codes, qwertz2koy m = m := by
  decide

theorem qwertz2koy_not_modifier (c : Int) (hc : c ∉ modifier_codes) :
    qwertz2koy c ∉ modifier_codes := by
  intro h
  have h1 := modifier_fixed _ h
  have h2 := qwertz2koy_inj _ _ h1
  rw [h2] at h
  exact hc h

theorem scan_loop_code (k : Int) (n : Nat) :
    ∀ (i : Int) (a : List Int) (code : Int) (a' : List Int) (code' : Int),
      scan_loop k n i a code = some (a', code') → code' = code ∨ code' = qwertz2koy k := by
  induction n with
  | zero =>
    intro i a code a' code' h
    simp only [scan_loop, Option.some.injEq, Prod.mk.injEq] at h
    exact Or.inl h.2.symm
  | succ n ih =>
    intro i a code a' code' h
    rw [scan_loop] at h
    cases hrd : rd a i with
    | none => simp [hrd] at h
    | some v =>
      simp only [hrd] at h
      by_cases hv : v = k + 1
      · rw [if_pos hv] at h
        cases hwr : wr a i 0 with
        | none => simp [hwr] at h
        | some a2 =>
          simp only [hwr] at h
          rcases ih _ _ _ _ _ h with h1 | h1
          · exact Or.inr h1
          · exact Or.inr h1
      · rw [if_neg hv] at h
        exact ih _ _ _ _ _ h

/-- Whatever the state, the record emitted by one loop iteration is the record read or
the record read with its code mapped by the table. -/
theorem step_emitted_cases (s : State) (ev : input_event) (r : StepResult)
    (h : step s ev = some r) :
    r.emitted = ev ∨ r.emitted = emit ev.type (qwertz2koy ev.code) ev.value := by
  by_cases hc : is_key_event ev
  swap
  · rw [step_not_key s ev hc] at h
    simp only [Option.some.injEq] at h
    left; rw [← h]
  by_cases he : eligible (update_mod_state s.mod_state ev)
      (update_koy_mod_state s.koy_mod_state ev) s.array_counter ev
  swap
  · rw [step_ineligible s ev hc he] at h
    simp only [Option.some.injEq] at h
    left; rw [← h]
  by_cases hv1 : ev.value = 1
  · by_cases hfull : s.array_counter = MAX_LENGTH
    · rw [step_press_full s ev hc he hv1 hfull] at h
      simp only [Option.some.injEq] at h
      left; rw [← h]
    · rw [step_press_track s ev hc he hv1 hfull] at h
      cases hwr : wr s.array s.array_counter (((ev.code : Nat) : Int) + 1) with
      | none => simp [hwr] at h
      | some a =>
        simp only [hwr, Option.some.injEq] at h
        right; rw [← h]
  by_cases hv0 : ev.value = 0
  · rw [step_release s ev hc he hv0] at h
    cases hsc : scan_loop ev.code s.array_counter.toNat 0 s.array ev.code with
    | none => simp [hsc] at h
    | some p =>
      obtain ⟨a, code⟩ := p
      simp only [hsc] at h
      cases htr : trim_loop a s.array_counter.toNat (s.array_counter - 1) s.array_counter with
      | none => simp [htr] at h
      | some n =>
        simp only [htr, Option.some.injEq] at h
        rcases scan_loop_code _ _ _ _ _ _ _ hsc with h1 | h1
        · left; rw [← h, h1]; exact emit_self ev
        · right; rw [← h, h1]
  · have hv2 : ev.value = 2 := by
      have := hc.2
      omega
    rw [step_repeat s ev hc hv2] at h
    simp only [Option.some.injEq] at h
    left; rw [← h]

theorem override_facts : ∀ o ∈ override_keys,
    o ∉ trigger_keys ∧ ((o : Nat) : Int) = qwertz2koy o ∧
    update_koy_mod_state 0 (key o 1) = koy_modifier_bit o ∧ koy_modifier_bit o ≠ 0 := by
  intro o ho
  simp only [override_keys, List.mem_cons, List.mem_singleton, List.mem_nil_iff, or_false] at ho
  rcases ho with rfl | rfl | rfl | rfl <;> decide

/-- The press of an override key with the override mask 0: the record passes through and
only the override mask changes. -/
theorem step_override_press (o : Fin 65536) (ho : o ∈ override_keys) (m n : Int)
    (a : List Int) :
    step { mod_state := m, koy_mod_state := 0, array_counter := n, array := a } (key o 1) =
      some { state := { mod_state := m, koy_mod_state := koy_modifier_bit o,
                        array_counter := n, array := a },
             emitted := key o 1, warning := false } := by
  obtain ⟨h1, h2, h3, -⟩ := override_facts o ho
  have he : ¬ eligible
      (update_mod_state m (key o 1)) (update_koy_mod_state 0 (key o 1)) n (key o 1) :=
    fun h => h.1 h2
  rw [step_ineligible { mod_state := m, koy_mod_state := 0, array_counter := n, array := a }
    (key o 1) (is_key_event_key o 1 (by omega)) he]
  dsimp only
  have hm : update_mod_state m (key o 1) = m := by
    simp [update_mod_state, key, modifier_bit_eq_zero o h1]
  rw [hm, h3]

/-- The release of a key the table changes while the override mask is not 0: the record
passes through and the state is unchanged. -/
theorem step_release_under_override (c : Fin 65536) (hc : ((c : Nat) : Int) ≠ qwertz2koy c)
    (s : State) (hk : s.koy_mod_state ≠ 0) :
    step s (key c 0) = some { state := s, emitted := key c 0, warning := false } := by
  have hc1 : (((key c 0).code : Nat) : Int) ≠ qwertz2koy (key c 0).code := hc
  have hm := update_mod_state_of_remapped s.mod_state (key c 0) hc1
  have hko := update_koy_mod_state_of_remapped s.koy_mod_state (key c 0) hc1
  have he : ¬ eligible (update_mod_state s.mod_state (key c 0))
      (update_koy_mod_state s.koy_mod_state (key c 0)) s.array_counter (key c 0) := by
    rw [hko]
    exact fun h => hk h.2.2
  rw [step_ineligible s (key c 0) (is_key_event_key c 0 (by omega)) he, hm, hko]

theorem reachable_inv (s : State) (hs : Reachable s) :
    Inv s ∧ s.mod_state ∈ masks ∧ s.koy_mod_state ∈ masks := by
  obtain ⟨evs, outs, hrun⟩ := hs
  obtain ⟨s', outs', hrun', hI, -, hm, hk, -⟩ := reach_masks evs
  rw [hrun] at hrun'
  simp only [Option.some.injEq, Prod.mk.injEq] at hrun'
  rw [hrun'.1]
  exact ⟨hI, hm, hk⟩

/-- The shape of a state that satisfies the invariant, slot by slot. -/
theorem inv_shape (s : State) (hI : Inv s) :
    s.array.length = 32 ∧ 0 ≤ s.array_counter ∧ s.array_counter ≤ 32 ∧
    (∀ i : Nat, s.array_counter ≤ (i : Int) → i < 32 → s.array[i]? = some 0) ∧
    (0 < s.array_counter →
      ∃ v, s.array[(s.array_counter - 1).toNat]? = some v ∧ v ≠ 0) ∧
    (0 < s.array_counter ↔ ∃ v ∈ s.array, v ≠ 0) := by
  obtain ⟨live, ⟨harr, hlen, hcnt⟩, hG⟩ := hI
  have hlast : 0 < live.length → ∃ v, live[live.length - 1]? = some v ∧ v ≠ 0 := by
    intro hpos
    have hne : live ≠ [] := List.ne_nil_of_length_pos hpos
    refine ⟨live.getLast hne, ?_, ?_⟩
    · rw [List.getLast_eq_getElem]
      exact List.getElem?_eq_getElem _
    · intro h0
      apply hG.1
      rw [List.getLast?_eq_getLast _ hne, h0]
  refine ⟨?_, by omega, by omega, ?_, ?_, ?_⟩
  · rw [harr, List.length_append, List.length_replicate]
    omega
  · intro i hi hi32
    have hle : live.length ≤ i := by omega
    rw [harr, List.getElem?_append_right hle, List.getElem?_replicate]
    have : i - live.length < 32 - live.length := by omega
    simp [this]
  · intro hpos
    have hpos' : 0 < live.length := by omega
    obtain ⟨v, hv, hv0⟩ := hlast hpos'
    refine ⟨v, ?_, hv0⟩
    have e : (s.array_counter - 1).toNat = live.length - 1 := by omega
    rw [e, harr, List.getElem?_append_left (by omega)]
    exact hv
  · constructor
    · intro hpos
      obtain ⟨v, hv, hv0⟩ := hlast (by omega)
      refine ⟨v, ?_, hv0⟩
      rw [harr]
      exact List.mem_append_left _ (List.getElem?_mem hv)
    · rintro ⟨v, hv, hv0⟩
      rw [harr, mem_append_zeros v hv0] at hv
      have := List.length_pos_of_mem hv
      omega

set_option maxRecDepth 100000 in
theorem hole_state_reached :
    run init (key 29 1 :: (fill_keys.map (fun c => key c 1) ++ [key 12 0])) =
      some (hole_state, key 29 1 :: (fill_keys.map
        (fun c => key (narrow16 (qwertz2koy ((c : Nat) : Int))) 1) ++ [key 25 0])) := by
  decide

/-- A remappable press arriving in a reached state is eligible (line 323), whether the
claim's condition holds by the trigger mask or by an occupied slot. -/
theorem press_elig (s : State) (hs : Reachable s) (ev : input_event)
    (hr : qwertz2koy ev.code ≠ ev.code)
    (hm : s.mod_state ≠ 0 ∨ ∃ v ∈ s.array, v ≠ 0) (ho : s.koy_mod_state = 0) :
    eligible (update_mod_state s.mod_state ev) (update_koy_mod_state s.koy_mod_state ev)
      s.array_counter ev ∧
    update_mod_state s.mod_state ev = s.mod_state ∧
    update_koy_mod_state s.koy_mod_state ev = s.koy_mod_state := by
  obtain ⟨hI, hmask, -⟩ := reachable_inv s hs
  have hr' : ((ev.code : Nat) : Int) ≠ qwertz2koy ev.code := fun h => hr h.symm
  have h1 := update_mod_state_of_remapped s.mod_state ev hr'
  have h2 := update_koy_mod_state_of_remapped s.koy_mod_state ev hr'
  refine ⟨⟨hr', ?_, by rw [h2, ho]⟩, h1, h2⟩
  rw [h1]
  rcases hm with hm | hm
  · left
    have := (mem_masks _).1 hmask
    omega
  · right
    exact (inv_shape s hI).2.2.2.2.2.2 hm

/-- A tracked press, slot by slot: the state and the record after an eligible press that
finds `array_counter` different from `MAX_LENGTH`, in a state with the invariant. -/
theorem step_track_explicit (s : State) (hI : Inv s) (ev : input_event)
    (hc : is_key_event ev)
    (he : eligible (update_mod_state s.mod_state ev)
      (update_koy_mod_state s.koy_mod_state ev) s.array_counter ev)
    (hv : ev.value = 1) (hfull : s.array_counter ≠ 32) :
    step s ev = some
      { state := { mod_state := update_mod_state s.mod_state ev,
                   koy_mod_state := update_koy_mod_state s.koy_mod_state ev,
                   array_counter := s.array_counter + 1,
                   array := s.array.set s.array_counter.toNat (((ev.code : Nat) : Int) + 1) },
        emitted := emit ev.type (qwertz2koy ev.code) ev.value, warning := false } := by
  obtain ⟨h1, h2, h3, -⟩ := inv_shape s hI
  have hb : 0 ≤ s.array_counter ∧ s.array_counter < (s.array.length : Int) := by
    rw [h1]
    constructor
    · exact h2
    · have : s.array_counter ≤ 32 := h3
      push_cast
      omega
  rw [step_press_track s ev hc he hv hfull, wr, if_pos hb]

theorem gap_state_reached :
    run init [key 29 1, key 12 1, key 16 1, key 12 0] =
      some (gap_state, [key 29 1, key 25 1, key 45 1, key 25 0]) := by
  decide

theorem occupied_append_zeros (l : List Int) (k : Nat) :
    occupied (l ++ List.replicate k 0) = occupied l := by
  unfold occupied
  rw [List.filter_append]
  have : List.filter (fun v => decide (v ≠ 0)) (List.replicate k (0 : Int)) = [] := by
    rw [List.filter_eq_nil_iff]
    intro x hx
    rw [List.mem_replicate] at hx
    simp [hx.2]
  rw [this, List.append_nil]

theorem mem_occupied (x : Int) (l : List Int) : x ∈ occupied l ↔ x ∈ l ∧ x ≠ 0 := by
  simp [occupied]

theorem occupied_snoc (l : List Int) (v : Int) (hv : v ≠ 0) :
    occupied (l ++ [v]) = occupied l ++ [v] := by
  simp [occupied, List.filter_append, List.filter_cons, hv]

theorem rep_unique (s : State) (l1 l2 : List Int) (h1 : Rep s l1) (h2 : Rep s l2) :
    l1 = l2 := by
  have hlen : l1.length = l2.length := by
    have := h1.2.2.symm.trans h2.2.2
    omega
  have e := h1.1.symm.trans h2.1
  exact List.append_inj_left e hlen

theorem hazard_free_accepts :
    HazardFree [key 58 1, key 29 1, key 46 1, key 58 0, key 46 0, key 58 1, key 58 0] := by
  decide

theorem hazard_free_rejects :
    ¬ HazardFree [key 29 1, key 46 1, key 58 1, key 46 0] := by
  decide

theorem no_retrack_accepts :
    NoRetrack [key 29 1, key 46 1, key 58 1, key 46 0, key 58 0, key 29 0] := by
  decide

theorem no_retrack_rejects :
    ¬ NoRetrack [key 29 1, key 46 1, key 58 1, key 46 0, key 58 0, key 46 1] := by
  decide

theorem at_every_record_snoc (P : State → input_event → Prop) (es : List input_event)
    (e : input_event) :
    AtEveryRecord P (es ++ [e]) ↔ AtEveryRecord P es ∧ holds_after P (run init es) e := by
  have hlast : es.length < (es ++ [e]).length := by simp
  have hgetl : (es ++ [e]).get ⟨es.length, hlast⟩ = e := by
    rw [List.get_eq_getElem]
    show (es ++ [e])[es.length] = e
    rw [List.getElem_append_right (Nat.le_refl _)]
    simp
  have htakel : (es ++ [e]).take es.length = es := by simp
  have hget : ∀ (i : Nat) (h1 : i < es.length) (h2 : i < (es ++ [e]).length),
      (es ++ [e]).get ⟨i, h2⟩ = es.get ⟨i, h1⟩ := by
    intro i h1 h2
    rw [List.get_eq_getElem, List.get_eq_getElem]
    exact List.getElem_append_left h1
  have htake : ∀ i : Nat, i < es.length → (es ++ [e]).take i = es.take i := by
    intro i h1
    rw [List.take_append_of_le_length (Nat.le_of_lt h1)]
  constructor
  · intro h
    constructor
    · intro i
      have hlt : (i : Nat) < (es ++ [e]).length := by
        have := i.isLt
        simp only [List.length_append, List.length_singleton]
        omega
      have h1 := h ⟨i, hlt⟩
      rw [hget i i.isLt hlt] at h1
      simp only [htake i i.isLt] at h1
      exact h1
    · have h1 := h ⟨es.length, hlast⟩
      rw [hgetl] at h1
      simp only [htakel] at h1
      exact h1
  · rintro ⟨h1, h2⟩ i
    by_cases hi : (i : Nat) < es.length
    · have := h1 ⟨i, hi⟩
      rw [hget i hi i.isLt]
      simp only [htake i hi]
      exact this
    · have hieq : i = ⟨es.length, hlast⟩ := by
        apply Fin.ext
        have := i.isLt
        simp only [List.length_append, List.length_singleton] at this
        show (i : Nat) = es.length
        omega
      rw [hieq, hgetl]
      simp only [htakel]
      exact h2

/-- A release of a tracked key that passes `hazard_ok` is eligible on line 323. -/
theorem hazard_ok_elig (s : State) (e : input_event) (hI : Inv s) (hz : hazard_ok s e)
    (hty : ((e.type : Nat) : Int) = EV_KEY) (hv : e.value = 0) (ht : tracked s e.code) :
    elig s e := by
  obtain ⟨h1, h2⟩ := tracked_remapped s e.code hI ht
  exact ⟨h1, Or.inr h2, hz hty hv ht⟩

/-- From the initial state, when no tracked key is released under a non-zero override
mask: the run goes through, the invariant holds, and only held keys are in the
ledger. -/
theorem reach_hazard_free (evs : List input_event) (hhf : HazardFree evs) :
    ∃ s outs, run init evs = some (s, outs) ∧ Inv s ∧ outs.length = evs.length ∧
      ∀ c, tracked s c → last_pr c evs = some 1 := by
  induction evs using List.reverseRecOn with
  | nil =>
    refine ⟨init, [], rfl, init_inv, rfl, ?_⟩
    intro c hc
    simp [tracked, init] at hc
    omega
  | append_singleton es e ih =>
    obtain ⟨hhf', hz⟩ := (at_every_record_snoc hazard_ok es e).1 hhf
    obtain ⟨s, outs, hrun, hI, hlen, htr⟩ := ih hhf'
    rw [hrun] at hz
    have hz' : hazard_ok s e := hz
    obtain ⟨r, hr, hIr, -, -, -, -, htrk, -, -⟩ := step_spec s e hI
    have hrun' : run init (es ++ [e]) = some (r.state, outs ++ [r.emitted]) :=
      run_append es [e] init s r.state outs [r.emitted] hrun
        (run_cons s e [] r r.state [] hr rfl)
    refine ⟨r.state, outs ++ [r.emitted], hrun', hIr, by simp [hlen], ?_⟩
    intro c hc
    rw [last_pr_snoc]
    rcases (htrk c).1 hc with ⟨h1, h2⟩ | ⟨h1, h2, -, h4, -⟩
    · by_cases hpr : is_pr c e
      · rw [if_pos hpr]
        rcases hpr.2.2 with h0 | h1'
        · exfalso
          apply h2
          refine ⟨hpr.2.1, ⟨hpr.1, by omega, by omega⟩, ?_, h0⟩
          apply hazard_ok_elig s e hI hz' hpr.1 h0
          rw [hpr.2.1]; exact h1
        · rw [h1']
      · rw [if_neg hpr]; exact htr c h1
    · have hpr : is_pr c e := ⟨h2.1, h1, Or.inr h4⟩
      rw [if_pos hpr, h4]

theorem last_pr_is_pr (c : Fin 65536) (evs : List input_event) (v : Int)
    (h : last_pr c evs = some v) : ∃ e ∈ evs, is_pr c e := by
  unfold last_pr at h
  cases hl : (evs.filter (fun e => decide (is_pr c e))).getLast? with
  | none => simp [hl] at h
  | some e =>
    have hm := List.mem_of_getLast?_eq_some hl
    rw [List.mem_filter] at hm
    exact ⟨e, hm.1, of_decide_eq_true hm.2⟩

/-- A sequence without override-key records has no release under a held override key. -/
theorem no_release_under_override_of_no_override (evs : List input_event)
    (hno : NoOverride evs) : NoReleaseUnderOverride evs := by
  intro i _ _ _ o ho hlast
  obtain ⟨e, he, hty, hcode, -⟩ := last_pr_is_pr o _ 1 hlast
  exact hno e (List.mem_of_mem_take he) ⟨hty, hcode ▸ ho⟩

/-- The condition on the records alone implies the condition on the ledger: a tracked key
is a key the table changes, and the override mask is 0 when no override key is held. -/
theorem hazard_free_of_no_release_under_override (evs : List input_event)
    (h : NoReleaseUnderOverride evs) : HazardFree evs := by
  intro i
  obtain ⟨s, outs, hrun, hI, -, -, hk, -, hkb⟩ := reach_masks (evs.take i)
  rw [hrun]
  show hazard_ok s (evs.get i)
  intro hty hv ht
  obtain ⟨hrem, -⟩ := tracked_remapped s _ hI ht
  rw [update_koy_mod_state_of_remapped _ _ hrem]
  apply mask_zero _ hk override_bits (by simp)
  intro p hp
  by_contra hne
  have hheld := (hkb p hp).1 hne
  have hmem : p.1 ∈ override_keys :=
    (by decide : ∀ q ∈ override_bits, q.1 ∈ override_keys) p hp
  exact h i hty hv (fun e => hrem e.symm) p.1 hmem hheld

/-- With alternating presses and releases, a sequence in which no tracked key is released
under a non-zero override mask never sees a press of a key that is still stored. -/
theorem no_retrack_of_hazard_free (evs : List input_event) (halt : Alternating evs)
    (hhf : HazardFree evs) : NoRetrack evs := by
  induction evs using List.reverseRecOn with
  | nil => intro i; exact absurd i.isLt (by simp)
  | append_singleton es e ih =>
    obtain ⟨hhf', -⟩ := (at_every_record_snoc hazard_ok es e).1 hhf
    refine (at_every_record_snoc retrack_ok es e).2
      ⟨ih (alternating_of_snoc es e halt) hhf', ?_⟩
    obtain ⟨s, outs, hrun, -, -, htr⟩ := reach_hazard_free es hhf'
    rw [hrun]
    show retrack_ok s e
    intro hty hv ht _
    exact (alternating_at es [] e halt hty).1 hv (htr e.code ht)

/-- The added condition of C2 is needed at every record: a RELEASED record that arrives
for a stored key while the override mask is not 0 leaves the key in the ledger, so right
after it the ledger holds a key whose last record is a release. -/
theorem hazard_breaks_content (es : List input_event) (e : input_event)
    (h : ¬ holds_after hazard_ok (run init es) e) :
    ∃ s outs, run init (es ++ [e]) = some (s, outs) ∧ tracked s e.code ∧
      last_pr e.code (es ++ [e]) = some 0 ∧ ¬ held_remapped e.code (es ++ [e]) outs := by
  obtain ⟨s, outs, hrun, hI, hlen, -⟩ := reach_masks es
  rw [hrun] at h
  have h' : ¬ hazard_ok s e := h
  unfold hazard_ok at h'
  push_neg at h'
  obtain ⟨hty, hv, ht, hk⟩ := h'
  obtain ⟨r, hr, -, -, -, -, -, htrk, -, -⟩ := step_spec s e hI
  have hrun' : run init (es ++ [e]) = some (r.state, outs ++ [r.emitted]) :=
    run_append es [e] init s r.state outs [r.emitted] hrun
      (run_cons s e [] r r.state [] hr rfl)
  have hpr : is_pr e.code e := ⟨hty, rfl, Or.inl hv⟩
  refine ⟨r.state, _, hrun', ?_, ?_, ?_⟩
  · rw [htrk]
    exact Or.inl ⟨ht, fun hx => hk hx.2.2.1.2.2⟩
  · rw [last_pr_snoc, if_pos hpr, hv]
  · rw [held_remapped_snoc e.code es outs e r.emitted hlen]
    rintro (⟨-, h1, -⟩ | ⟨h1, -⟩)
    · omega
    · exact h1 hpr

/-- The added condition of C16 is needed at every record: a PRESSED record that is
tracked for a key already stored puts the key in a second slot. -/
theorem retrack_breaks_unique (es : List input_event) (e : input_event)
    (h : ¬ holds_after retrack_ok (run init es) e) :
    ∃ s outs, run init (es ++ [e]) = some (s, outs) ∧ ¬ (occupied s.array).Nodup := by
  obtain ⟨s, outs, hrun, ⟨live, hR, -⟩, -, -⟩ := reach_masks es
  rw [hrun] at h
  have h' : ¬ retrack_ok s e := h
  unfold retrack_ok at h'
  push_neg at h'
  obtain ⟨hty, hv, ht, hel, hroom⟩ := h'
  have hc : is_key_event e := ⟨hty, by omega, by omega⟩
  obtain ⟨r, hr, hRr, -⟩ := step_track_rep s e live hR hc hel hv hroom
  have hrun' : run init (es ++ [e]) = some (r.state, outs ++ [r.emitted]) :=
    run_append es [e] init s r.state outs [r.emitted] hrun
      (run_cons s e [] r r.state [] hr rfl)
  refine ⟨r.state, _, hrun', ?_⟩
  rw [hRr.1, occupied_append_zeros, occupied_snoc live _ (by omega), List.nodup_append]
  rintro ⟨-, -, hdis⟩
  rw [tracked_iff_live s live hR] at ht
  exact hdis ((mem_occupied _ live).2 ⟨ht, by omega⟩) (List.mem_singleton.2 rfl)

/-! ## The claims -/

/-- Claim C1 (press/release consistency without override keys). Take any sequence of
records processed from the initial state, with no key record of an override key, in
which the presses and releases of every key alternate starting with a press. The run goes
through and emits one record per input record. For every RELEASED record of a key `c` in
the sequence (at position `pre2.length`) there is the press it ends: a PRESSED record of
`c` before it (at position `pre.length`) with no press or release of `c` in between; and
the record emitted for the release carries the same code as the record emitted for that
press. Nothing is assumed on the trigger keys or on how full the ledger is, and repeats
and non-key records may stand anywhere. -/
theorem press_release_consistency (evs : List input_event)
    (hno : NoOverride evs) (halt : Alternating evs) :
    ∃ s outs, run init evs = some (s, outs) ∧ outs.length = evs.length ∧
      ∀ (pre2 post : List input_event) (c : Fin 65536), evs = pre2 ++ key c 0 :: post →
        ∃ pre mid oP oR, pre2 = pre ++ key c 1 :: mid ∧ (∀ e ∈ mid, ¬ is_pr c e) ∧
          outs[pre.length]? = some oP ∧ outs[pre2.length]? = some oR ∧
          oP.code = oR.code ∧ oP.type = 1 ∧ oP.value = 1 ∧ oR.type = 1 ∧ oR.value = 0 := by
  obtain ⟨s, outs, hrun, -, hlen, -, -⟩ := reach evs hno
  refine ⟨s, outs, hrun, hlen, ?_⟩
  intro pre2 post c hevs
  subst hevs
  obtain ⟨pre, mid, hpre2, hmid⟩ := release_has_press pre2 post c halt
  subst hpre2
  have hevs : (pre ++ key c 1 :: mid) ++ key c 0 :: post =
      pre ++ key c 1 :: (mid ++ key c 0 :: post) := by simp
  rw [hevs] at hno halt hrun
  obtain ⟨s1, o1, rP, s2, o2, rR, s3, o3, -, -, -, -, -, hrun', hl1, hl2, -, hcase, -, hty⟩ :=
    pair_core pre mid post c hno halt hmid
  rw [hrun] at hrun'
  simp only [Option.some.injEq, Prod.mk.injEq] at hrun'
  obtain ⟨-, houts⟩ := hrun'
  refine ⟨pre, mid, rP.emitted, rR.emitted, rfl, hmid, ?_, ?_, ?_, hty⟩
  · rw [houts, ← hl1, List.getElem?_append_right (Nat.le_refl _)]
    simp
  · have e1 : o1 ++ rP.emitted :: (o2 ++ rR.emitted :: o3) =
        (o1 ++ rP.emitted :: o2) ++ rR.emitted :: o3 := by simp
    have e2 : (pre ++ key c 1 :: mid).length = (o1 ++ rP.emitted :: o2).length := by
      simp [hl1, hl2]
    rw [houts, e1, e2, List.getElem?_append_right (Nat.le_refl _)]
    simp
  · rcases hcase with ⟨-, h1, -, h2⟩ | ⟨-, h1, -, h2⟩
    · apply Fin.ext
      have := h1.trans h2.symm
      omega
    · rw [h1, h2]; rfl

theorem press_release_consistency_witness :
    ∃ s outs,
      run init [key 29 1, key 46 1, key 29 0, key 30 1, key 46 0, key 30 0] = some (s, outs) ∧
      outs.length = [key 29 1, key 46 1, key 29 0, key 30 1, key 46 0, key 30 0].length ∧
      ∀ (pre2 post : List input_event) (c : Fin 65536),
        [key 29 1, key 46 1, key 29 0, key 30 1, key 46 0, key 30 0] =
          pre2 ++ key c 0 :: post →
        ∃ pre mid oP oR, pre2 = pre ++ key c 1 :: mid ∧ (∀ e ∈ mid, ¬ is_pr c e) ∧
          outs[pre.length]? = some oP ∧ outs[pre2.length]? = some oR ∧
          oP.code = oR.code ∧ oP.type = 1 ∧ oP.value = 1 ∧ oR.type = 1 ∧ oR.value = 0 :=
  press_release_consistency [key 29 1, key 46 1, key 29 0, key 30 1, key 46 0, key 30 0]
    (by decide) (by decide)

/-- Claim C2 (ledger content), as amended: take any sequence of records processed from
the initial state in which the presses and releases of every key alternate starting with
a press, and in which no RELEASED record arrives for a key stored in the ledger while
the override mask is not 0; override-key records are allowed otherwise. Then the run
goes through, it emits one record per input record, and a key is stored in an occupied
ledger slot exactly when it is held at the end and its press was emitted remapped. -/
theorem ledger_content_hazard_free (evs : List input_event) (halt : Alternating evs)
    (hhf : HazardFree evs) :
    ∃ s outs, run init evs = some (s, outs) ∧ outs.length = evs.length ∧
      ∀ c, tracked s c ↔ held_remapped c evs outs := by
  induction evs using List.reverseRecOn with
  | nil =>
    refine ⟨init, [], rfl, rfl, ?_⟩
    intro c
    have h1 : ¬ tracked init c := by
      simp only [tracked, init, List.mem_replicate]
      omega
    have h2 : ¬ held_remapped c [] [] := by
      simp [held_remapped, last_pr_io]
    exact ⟨fun h => absurd h h1, fun h => absurd h h2⟩
  | append_singleton es e ih =>
    obtain ⟨hhf', hz⟩ := (at_every_record_snoc hazard_ok es e).1 hhf
    obtain ⟨s, outs, hrun, hlen, hcont⟩ := ih (alternating_of_snoc es e halt) hhf'
    obtain ⟨s0, outs0, hrun0, hI, -, htr⟩ := reach_hazard_free es hhf'
    have hs : s0 = s ∧ outs0 = outs := by
      rw [hrun] at hrun0
      simp only [Option.some.injEq, Prod.mk.injEq] at hrun0
      exact ⟨hrun0.1.symm, hrun0.2.symm⟩
    obtain ⟨rfl, rfl⟩ := hs
    rw [hrun] at hz
    have hz' : hazard_ok s0 e := hz
    obtain ⟨r, hr, -, -, -, -, -, htrk, hrem, hnrem⟩ := step_spec s0 e hI
    have hrun' : run init (es ++ [e]) = some (r.state, outs0 ++ [r.emitted]) :=
      run_append es [e] init s0 r.state outs0 [r.emitted] hrun
        (run_cons s0 e [] r r.state [] hr rfl)
    refine ⟨r.state, outs0 ++ [r.emitted], hrun', by simp [hlen], ?_⟩
    intro c
    rw [held_remapped_snoc c es outs0 e r.emitted hlen, htrk c]
    by_cases hpr : is_pr c e
    · obtain ⟨hty, hcode, hval⟩ := hpr
      have hkey : is_key_event e := ⟨hty, by omega, by omega⟩
      rcases hval with h0 | h1
      · constructor
        · rintro (⟨h, h'⟩ | ⟨-, -, -, h, -⟩)
          · exfalso
            apply h'
            refine ⟨hcode, hkey, ?_, h0⟩
            apply hazard_ok_elig s0 e hI hz' hty h0
            rw [hcode]; exact h
          · omega
        · rintro (⟨-, h, -⟩ | ⟨h, -⟩)
          · omega
          · exact absurd ⟨hty, hcode, Or.inl h0⟩ h
      · have hnt : ¬ tracked s0 c := by
          intro h
          have := (alternating_at es [] e halt hty).1 h1
          rw [hcode] at this
          exact this (htr c h)
        constructor
        · rintro (⟨h, -⟩ | ⟨-, -, h3, -, h5⟩)
          · exact absurd h hnt
          · left
            refine ⟨⟨hty, hcode, Or.inr h1⟩, h1, ?_⟩
            have hm := hrem ⟨hkey, h3, Or.inl ⟨h1, h5⟩⟩
            intro heq
            rw [heq] at hm
            exact h3.1 hm
        · rintro (⟨-, -, h⟩ | ⟨h, -⟩)
          · right
            by_cases hre : remaps s0 e
            · rcases hre with ⟨-, h3, ⟨-, h5⟩ | ⟨h6, -⟩⟩
              · exact ⟨hcode, hkey, h3, h1, h5⟩
              · omega
            · exact absurd (congrArg input_event.code (hnrem hre)) h
          · exact absurd ⟨hty, hcode, Or.inr h1⟩ h
    · constructor
      · rintro (⟨h, -⟩ | ⟨h1, h2, -, h4, -⟩)
        · exact Or.inr ⟨hpr, (hcont c).1 h⟩
        · exact absurd ⟨h2.1, h1, Or.inr h4⟩ hpr
      · rintro (⟨h, -⟩ | ⟨-, h⟩)
        · exact absurd h hpr
        · left
          refine ⟨(hcont c).2 h, ?_⟩
          rintro ⟨h1, h2, -, h4⟩
          exact hpr ⟨h2.1, h1, Or.inl h4⟩

theorem ledger_content_hazard_free_witness :
    ∃ s outs, run init [key 29 1, key 46 1, key 58 1, key 30 1, key 30 0, key 58 0] =
        some (s, outs) ∧
      outs.length = [key 29 1, key 46 1, key 58 1, key 30 1, key 30 0, key 58 0].length ∧
      ∀ c, tracked s c ↔
        held_remapped c [key 29 1, key 46 1, key 58 1, key 30 1, key 30 0, key 58 0] outs :=
  ledger_content_hazard_free [key 29 1, key 46 1, key 58 1, key 30 1, key 30 0, key 58 0]
    (by decide) (by decide)

/-- Claim C2 as stated fails when override keys are allowed. The sequence 29 PRESSED,
46 PRESSED, 58 PRESSED, 46 RELEASED alternates presses and releases for every key. The
press of 46 is emitted as 23 and stored in slot 0; the release of 46 comes while the
override key 58 is held, is emitted unmapped as 46, and leaves slot 0 as it is. At the
end key 46 is in the ledger although its last record is a release: an occupied slot
holds a key that is not held. -/
theorem ledger_content_counterexample :
    Alternating [key 29 1, key 46 1, key 58 1, key 46 0] ∧
    run init [key 29 1, key 46 1, key 58 1, key 46 0] =
      some ({ mod_state := 1, koy_mod_state := 1, array_counter := 1,
              array := 47 :: List.replicate 31 0 },
            [key 29 1, key 23 1, key 58 1, key 46 0]) ∧
    tracked { mod_state := 1, koy_mod_state := 1, array_counter := 1,
              array := 47 :: List.replicate 31 0 } 46 ∧
    last_pr 46 [key 29 1, key 46 1, key 58 1, key 46 0] = some 0 ∧
    ¬ held_remapped 46 [key 29 1, key 46 1, key 58 1, key 46 0]
        [key 29 1, key 23 1, key 58 1, key 46 0] := by
  refine ⟨by decide, by decide, by decide, by decide, by decide⟩

/-- Claim C3 (override precedence). In every state, for every key record with value 0,
1 or 2: if the override mask is non-zero after the modifier update for this record, the
record is emitted as it came (same type, code and value), no warning is printed, and the
ledger slots and count are unchanged; only the two masks take their updated values. -/
theorem override_precedence (s : State) (ev : input_event)
    (hk : ((ev.type : Nat) : Int) = EV_KEY) (hv : 0 ≤ ev.value ∧ ev.value ≤ 2)
    (ho : update_koy_mod_state s.koy_mod_state ev ≠ 0) :
    step s ev = some
      { state := { mod_state := update_mod_state s.mod_state ev,
                   koy_mod_state := update_koy_mod_state s.koy_mod_state ev,
                   array_counter := s.array_counter, array := s.array },
        emitted := ev, warning := false } :=
  step_ineligible s ev ⟨hk, hv.1, hv.2⟩ (fun h => ho h.2.2)

theorem override_precedence_witness :
    step { mod_state := 1, koy_mod_state := 1, array_counter := 0, array := List.replicate 32 0 }
        (key 46 1) = some
      { state := { mod_state := 1, koy_mod_state := 1, array_counter := 0,
                   array := List.replicate 32 0 },
        emitted := key 46 1, warning := false } :=
  override_precedence
    { mod_state := 1, koy_mod_state := 1, array_counter := 0, array := List.replicate 32 0 }
    (key 46 1) (by decide) (by decide) (by decide)

/-- Claim C4 (pass-through fidelity). In every state, a record whose type is not
`EV_KEY`, or whose value is outside 0..2, is emitted once with the same type, code and
value, and the whole state (both masks, slots, count) is unchanged, whatever its code. -/
theorem pass_through_fidelity (s : State) (ev : input_event)
    (h : ((ev.type : Nat) : Int) ≠ EV_KEY ∨ ev.value < 0 ∨ 2 < ev.value) :
    step s ev = some { state := s, emitted := ev, warning := false } := by
  apply step_not_key
  rintro ⟨h1, h2, h3⟩
  rcases h with h | h | h
  · exact h h1
  · omega
  · omega

theorem pass_through_fidelity_witness :
    step { mod_state := 0, koy_mod_state := 0, array_counter := 1,
           array := 47 :: List.replicate 31 0 }
        { type := 1, code := 46, value := 3 } = some
      { state := { mod_state := 0, koy_mod_state := 0, array_counter := 1,
                   array := 47 :: List.replicate 31 0 },
        emitted := { type := 1, code := 46, value := 3 }, warning := false } :=
  pass_through_fidelity _ _ (Or.inr (Or.inr (by decide)))

/-- Claim C5 (identity outside the table). For every integer `k` that is not a case
label of `qwertz2koy`, `qwertz2koy k = k`. -/
theorem qwertz2koy_identity_outside_table (k : Int) (h : k ∉ table_sources) :
    qwertz2koy k = k :=
  qwertz2koy_off_table k h

theorem qwertz2koy_identity_outside_table_witness : qwertz2koy 29 = 29 :=
  qwertz2koy_identity_outside_table 29 (by decide)

/-- Claim C6 (shortcut scenario). For every trigger key `t` and every 16-bit code `c`
that the table changes, the sequence `t` PRESSED, `c` PRESSED, `t` RELEASED, `c` RELEASED
from the initial state is emitted as `t` PRESSED, `cm` PRESSED, `t` RELEASED, `cm`
RELEASED with `cm = qwertz2koy c`. After the second record the count is 1, slot 0 holds
`c + 1`, and `c` is the only key in the ledger; after the fourth record the state is the
initial state again (empty ledger, count 0, both masks 0). -/
theorem shortcut_scenario (t : Fin 65536) (ht : t ∈ trigger_keys) (c : Fin 65536)
    (hc : qwertz2koy c ≠ c) :
    ∃ (cm : Fin 65536) (s2 : State), ((cm : Nat) : Int) = qwertz2koy c ∧
      run init [key t 1, key c 1] = some (s2, [key t 1, key cm 1]) ∧
      s2.array_counter = 1 ∧ s2.array = (((c : Nat) : Int) + 1) :: List.replicate 31 0 ∧
      (∀ c', tracked s2 c' ↔ c' = c) ∧
      run init [key t 1, key c 1, key t 0, key c 0] =
        some (init, [key t 1, key cm 1, key t 0, key cm 0]) := by
  have hc' : ((c : Nat) : Int) ≠ qwertz2koy c := fun h => hc h.symm
  obtain ⟨h1, -, hb⟩ := step_trigger t ht (List.replicate 32 0) 0
  obtain ⟨-, h3, -⟩ := step_trigger t ht ((((c : Nat) : Int) + 1) :: List.replicate 31 0) 1
  have h2 := step_first_press (modifier_bit t) hb c hc'
  have h4 := step_last_release c hc'
  refine ⟨narrow16 (qwertz2koy c),
    { mod_state := modifier_bit t, koy_mod_state := 0, array_counter := 1,
      array := (((c : Nat) : Int) + 1) :: List.replicate 31 0 },
    narrow16_qwertz2koy c, ?_, rfl, rfl, ?_, ?_⟩
  · apply run_cons _ _ _ _ _ _ h1
    exact run_cons _ _ _ _ _ _ h2 rfl
  · intro c'
    simp only [tracked, List.mem_cons, List.mem_replicate]
    constructor
    · rintro (h | ⟨-, h⟩)
      · apply Fin.ext; omega
      · omega
    · rintro rfl; exact Or.inl rfl
  · apply run_cons _ _ _ _ _ _ h1
    apply run_cons _ _ _ _ _ _ h2
    apply run_cons _ _ _ _ _ _ h3
    exact run_cons _ _ _ _ _ _ h4 rfl

theorem shortcut_scenario_witness :
    ∃ (cm : Fin 65536) (s2 : State), ((cm : Nat) : Int) = qwertz2koy ((46 : Fin 65536) : Nat) ∧
      run init [key 29 1, key 46 1] = some (s2, [key 29 1, key cm 1]) ∧
      s2.array_counter = 1 ∧
      s2.array = ((((46 : Fin 65536) : Nat) : Int) + 1) :: List.replicate 31 0 ∧
      (∀ c', tracked s2 c' ↔ c' = 46) ∧
      run init [key 29 1, key 46 1, key 29 0, key 46 0] =
        some (init, [key 29 1, key cm 1, key 29 0, key cm 0]) :=
  shortcut_scenario 29 (by decide) 46 (by decide)

/-- Claim C7 (no remap without trigger). In every state with trigger mask 0 and count
0, every key record with value 0, 1 or 2 (a press of a trigger key included) is emitted
as it came, without warning, and the slots and the count (0) are unchanged. -/
theorem no_remap_without_trigger (s : State) (ev : input_event)
    (hm : s.mod_state = 0) (hn : s.array_counter = 0)
    (hk : ((ev.type : Nat) : Int) = EV_KEY) (hv : 0 ≤ ev.value ∧ ev.value ≤ 2) :
    step s ev = some
      { state := { mod_state := update_mod_state 0 ev,
                   koy_mod_state := update_koy_mod_state s.koy_mod_state ev,
                   array_counter := 0, array := s.array },
        emitted := ev, warning := false } := by
  have he : ¬ eligible (update_mod_state s.mod_state ev)
      (update_koy_mod_state s.koy_mod_state ev) s.array_counter ev := by
    rintro ⟨h1, h2, -⟩
    rw [update_mod_state_of_remapped _ _ h1, hm, hn] at h2
    omega
  rw [step_ineligible s ev ⟨hk, hv.1, hv.2⟩ he, hm, hn]

theorem no_remap_without_trigger_witness :
    step init (key 46 1) = some
      { state := { mod_state := update_mod_state 0 (key 46 1),
                   koy_mod_state := update_koy_mod_state init.koy_mod_state (key 46 1),
                   array_counter := 0, array := init.array },
        emitted := key 46 1, warning := false } :=
  no_remap_without_trigger init (key 46 1) rfl rfl rfl (by decide)

/-- Claim C8 (capacity degradation). In every state with count 32, a PRESSED key
record whose code the table changes, with the override mask 0, is emitted with its own
code, the warning is printed, and the state (slots, count and masks) is unchanged: no
slot is written. The condition that the trigger mask is non-zero or the count positive
holds already because the count is 32. -/
theorem capacity_degradation (s : State) (ev : input_event)
    (hn : s.array_counter = 32)
    (hk : ((ev.type : Nat) : Int) = EV_KEY) (hv : ev.value = 1)
    (hr : qwertz2koy ev.code ≠ ev.code)
    (_hm : s.mod_state ≠ 0 ∨ s.array_counter > 0) (ho : s.koy_mod_state = 0) :
    step s ev = some { state := s, emitted := ev, warning := true } := by
  have hr' : ((ev.code : Nat) : Int) ≠ qwertz2koy ev.code := fun h => hr h.symm
  have he : eligible (update_mod_state s.mod_state ev)
      (update_koy_mod_state s.koy_mod_state ev) s.array_counter ev := by
    refine ⟨hr', Or.inr (by omega), ?_⟩
    rw [update_koy_mod_state_of_remapped _ _ hr', ho]
  rw [step_press_full s ev ⟨hk, by omega, by omega⟩ he hv hn,
    update_mod_state_of_remapped _ _ hr', update_koy_mod_state_of_remapped _ _ hr']

theorem capacity_degradation_witness :
    run init (key 29 1 :: fill_keys.map (fun c => key c 1)) =
      some (full_state, key 29 1 :: fill_keys.map
        (fun c => key (narrow16 (qwertz2koy ((c : Nat) : Int))) 1)) ∧
    step full_state (key 53 1) =
      some { state := full_state, emitted := key 53 1, warning := true } :=
  ⟨full_state_reached,
   capacity_degradation full_state (key 53 1) rfl rfl rfl (by decide) (Or.inl (by decide)) rfl⟩

/-- Claim C9 (ledger balance). Take any sequence processed from the initial state, with
no key record of an override key, in which the presses and releases of every key
alternate starting with a press, and at whose end no key is held. Then the run goes
through and ends in the initial state (both masks 0, all 32 slots empty, count 0).
Moreover every PRESSED record of a key `c` has the release that ends it (a RELEASED
record of `c` after it, with no press or release of `c` in between), and if the press
was tracked then `c` is still in the ledger when that release arrives, the release is
emitted with the mapped code, and `c` is out of the ledger after it. No order of the
releases is assumed. -/
theorem ledger_balance (evs : List input_event) (hno : NoOverride evs)
    (halt : Alternating evs) (hrel : AllReleased evs) :
    ∃ outs, run init evs = some (init, outs) ∧ outs.length = evs.length ∧
      ∀ (pre rest : List input_event) (c : Fin 65536), evs = pre ++ key c 1 :: rest →
        ∃ mid post s1 o1 rP s2 o2 rR o3,
          rest = mid ++ key c 0 :: post ∧ (∀ e ∈ mid, ¬ is_pr c e) ∧
          run init pre = some (s1, o1) ∧ step s1 (key c 1) = some rP ∧
          run rP.state mid = some (s2, o2) ∧ step s2 (key c 0) = some rR ∧
          run rR.state post = some (init, o3) ∧
          (tracked rP.state c →
            tracked s2 c ∧ ((rR.emitted.code : Nat) : Int) = qwertz2koy c ∧
              ¬ tracked rR.state c) := by
  obtain ⟨s, outs, hrun, hI, hlen, hk, htr⟩ := reach evs hno
  obtain ⟨s', outs', hrun', -, -, hm, -, hmb, -⟩ := reach_masks evs
  have hss : s' = s := by
    rw [hrun] at hrun'
    simp only [Option.some.injEq, Prod.mk.injEq] at hrun'
    exact hrun'.1.symm
  subst hss
  have hnt : ∀ c, ¬ tracked s' c := fun c h => all_released evs hrel c (htr c h)
  obtain ⟨harr, hcnt⟩ := inv_empty s' hI hnt
  have hm0 : s'.mod_state = 0 := by
    apply mask_zero _ hm trigger_bits (by simp)
    intro p hp
    by_contra hne
    exact all_released evs hrel p.1 ((hmb p hp).1 hne)
  have hinit : s' = init := by
    cases s'
    simp only [init, State.mk.injEq]
    exact ⟨hm0, hk, hcnt, harr⟩
  subst hinit
  refine ⟨outs, hrun, hlen, ?_⟩
  intro pre rest c hevs
  subst hevs
  obtain ⟨mid, post, hrest, hmid⟩ := press_has_release pre rest c halt hrel
  subst hrest
  obtain ⟨s1, o1, rP, s2, o2, rR, s3, o3, h1, hP, h2, hR, h3, hrun3, -, -, -, hcase, hnR, -⟩ :=
    pair_core pre mid post c hno halt hmid
  have hs3 : s3 = init := by
    rw [hrun] at hrun3
    simp only [Option.some.injEq, Prod.mk.injEq] at hrun3
    exact hrun3.1.symm
  subst hs3
  refine ⟨mid, post, s1, o1, rP, s2, o2, rR, o3, rfl, hmid, h1, hP, h2, hR, h3, ?_⟩
  intro ht
  rcases hcase with ⟨-, -, h, h'⟩ | ⟨h, -⟩
  · exact ⟨h, h', hnR⟩
  · exact absurd ht h

theorem ledger_balance_witness :
    ∃ outs, run init [key 29 1, key 46 1, key 30 1, key 29 0, key 46 0, key 30 0] =
      some (init, outs) ∧
      outs.length = [key 29 1, key 46 1, key 30 1, key 29 0, key 46 0, key 30 0].length :=
  (ledger_balance [key 29 1, key 46 1, key 30 1, key 29 0, key 46 0, key 30 0]
    (by decide) (by decide) (by decide)).imp (fun _ h => ⟨h.1, h.2.1⟩)

/-- Claim C10 (meaning of the modifier masks). After any sequence of records processed
from the initial state the run goes through, both masks lie in 0..15, and for each
trigger key (29 with bit 1, 97 with bit 2, 56 with bit 4, 125 with bit 8) the bit is set
in `mod_state` exactly when the sequence has a PRESSED or RELEASED key record of that key
and the last one is PRESSED; likewise for `koy_mod_state` and the override keys (58, 43,
86, 100 with bits 1, 2, 4, 8). Second part: appending a record that is not a key record,
or whose value is neither 0 nor 1 (a repeat), or whose code is none of the eight
modifier keys, changes neither mask. -/
theorem modifier_mask_meaning :
    (∀ evs : List input_event, ∃ s outs, run init evs = some (s, outs) ∧
      (0 ≤ s.mod_state ∧ s.mod_state ≤ 15) ∧
      (0 ≤ s.koy_mod_state ∧ s.koy_mod_state ≤ 15) ∧
      (∀ p ∈ trigger_bits, c_and s.mod_state p.2 ≠ 0 ↔ last_pr p.1 evs = some 1) ∧
      (∀ p ∈ override_bits, c_and s.koy_mod_state p.2 ≠ 0 ↔ last_pr p.1 evs = some 1)) ∧
    (∀ (evs : List input_event) (e : input_event),
      (((e.type : Nat) : Int) ≠ EV_KEY ∨ (e.value ≠ 0 ∧ e.value ≠ 1) ∨
        (e.code ∉ trigger_keys ∧ e.code ∉ override_keys)) →
      ∃ s outs s' outs', run init evs = some (s, outs) ∧
        run init (evs ++ [e]) = some (s', outs') ∧
        s'.mod_state = s.mod_state ∧ s'.koy_mod_state = s.koy_mod_state) := by
  constructor
  · intro evs
    obtain ⟨s, outs, hrun, -, -, hm, hk, hmb, hkb⟩ := reach_masks evs
    exact ⟨s, outs, hrun, (mem_masks _).1 hm, (mem_masks _).1 hk, hmb, hkb⟩
  · intro evs e he
    obtain ⟨s, outs, hrun, hI, -⟩ := reach_masks evs
    obtain ⟨r, hr, -, hmr, hkr, -⟩ := step_spec s e hI
    have hf := masks_frame e he s.mod_state s.koy_mod_state
    refine ⟨s, outs, r.state, outs ++ [r.emitted], hrun, ?_, hmr.trans hf.1, hkr.trans hf.2⟩
    exact run_append evs [e] init s r.state outs [r.emitted] hrun
      (run_cons s e [] r r.state [] hr rfl)

theorem modifier_mask_meaning_witness :
    ∃ s outs s' outs', run init [key 29 1] = some (s, outs) ∧
      run init ([key 29 1] ++ [key 29 2]) = some (s', outs') ∧
      s'.mod_state = s.mod_state ∧ s'.koy_mod_state = s.koy_mod_state :=
  modifier_mask_meaning.2 [key 29 1] (key 29 2) (Or.inr (Or.inl (by decide)))

/-- Claim C11 (repeats are never remapped). In every state, a key record with value 2
(REPEATED) is emitted as it came, with its own code, without warning, and the whole state
(both masks, slots, count) is unchanged, also when the code is in the ledger. -/
theorem repeats_never_remapped (s : State) (ev : input_event)
    (hk : ((ev.type : Nat) : Int) = EV_KEY) (hv : ev.value = 2) :
    step s ev = some { state := s, emitted := ev, warning := false } := by
  rw [step_repeat s ev ⟨hk, by omega, by omega⟩ hv, update_mod_state_repeat _ _ hv,
    update_koy_mod_state_repeat _ _ hv]

theorem repeats_never_remapped_witness :
    step { mod_state := 1, koy_mod_state := 0, array_counter := 1,
           array := 47 :: List.replicate 31 0 } (key 46 2) =
      some { state := { mod_state := 1, koy_mod_state := 0, array_counter := 1,
                        array := 47 :: List.replicate 31 0 },
             emitted := key 46 2, warning := false } :=
  repeats_never_remapped _ _ rfl rfl

/-- Claim C12 (documented override hazard). For every trigger key `t`, every 16-bit code
`c` that the table changes and every override key `o`, the sequence `t` PRESSED, `c`
PRESSED, `o` PRESSED, `c` RELEASED from the initial state emits the press of `c` with
the mapped code `cm = qwertz2koy c`, different from `c`, and the release of `c` with the
code `c` itself; after the release slot 0 still holds `c + 1` with count 1, so `c` is
still stored in the ledger. -/
theorem override_hazard (t : Fin 65536) (ht : t ∈ trigger_keys) (c : Fin 65536)
    (hc : qwertz2koy c ≠ c) (o : Fin 65536) (ho : o ∈ override_keys) :
    ∃ (cm : Fin 65536) (s : State), ((cm : Nat) : Int) = qwertz2koy c ∧ cm ≠ c ∧
      run init [key t 1, key c 1, key o 1, key c 0] =
        some (s, [key t 1, key cm 1, key o 1, key c 0]) ∧
      s.array_counter = 1 ∧ s.array = (((c : Nat) : Int) + 1) :: List.replicate 31 0 ∧
      tracked s c := by
  have hc' : ((c : Nat) : Int) ≠ qwertz2koy c := fun h => hc h.symm
  obtain ⟨h1, -, hb⟩ := step_trigger t ht (List.replicate 32 0) 0
  have h2 := step_first_press (modifier_bit t) hb c hc'
  have h3 := step_override_press o ho (modifier_bit t) 1
    ((((c : Nat) : Int) + 1) :: List.replicate 31 0)
  have h4 := step_release_under_override c hc'
    { mod_state := modifier_bit t, koy_mod_state := koy_modifier_bit o, array_counter := 1,
      array := (((c : Nat) : Int) + 1) :: List.replicate 31 0 } (override_facts o ho).2.2.2
  refine ⟨narrow16 (qwertz2koy c),
    { mod_state := modifier_bit t, koy_mod_state := koy_modifier_bit o, array_counter := 1,
      array := (((c : Nat) : Int) + 1) :: List.replicate 31 0 },
    narrow16_qwertz2koy c, ?_, ?_, rfl, rfl, ?_⟩
  · intro h
    apply hc
    rw [← narrow16_qwertz2koy c, h]
  · apply run_cons _ _ _ _ _ _ h1
    apply run_cons _ _ _ _ _ _ h2
    apply run_cons _ _ _ _ _ _ h3
    exact run_cons _ _ _ _ _ _ h4 rfl
  · simp [tracked]

theorem override_hazard_witness :
    ∃ (cm : Fin 65536) (s : State), ((cm : Nat) : Int) = qwertz2koy ((46 : Fin 65536) : Nat) ∧
      cm ≠ 46 ∧
      run init [key 29 1, key 46 1, key 58 1, key 46 0] =
        some (s, [key 29 1, key cm 1, key 58 1, key 46 0]) ∧
      s.array_counter = 1 ∧
      s.array = ((((46 : Fin 65536) : Nat) : Int) + 1) :: List.replicate 31 0 ∧
      tracked s 46 :=
  override_hazard 29 (by decide) 46 (by decide) 58 (by decide)

/-- Claim C13 (when tracking is refused), as amended: in every state reached from the
initial state, a PRESSED key record whose code the table changes, arriving with the
trigger mask non-zero or some slot occupied and with the override mask 0, is refused
tracking (emitted as it came, state unchanged) exactly when the count is 32, that is,
when slot 31 is occupied; this is the case in particular when all 32 slots are occupied.
Whenever the count is below 32 the press is tracked and emitted with the mapped
code. -/
theorem tracking_refused_iff_count_full (s : State) (hs : Reachable s) (ev : input_event)
    (hk : ((ev.type : Nat) : Int) = EV_KEY) (hv : ev.value = 1)
    (hr : qwertz2koy ev.code ≠ ev.code)
    (hm : s.mod_state ≠ 0 ∨ ∃ v ∈ s.array, v ≠ 0) (ho : s.koy_mod_state = 0) :
    ∃ r, step s ev = some r ∧
      ((r.emitted = ev ∧ r.state = s) ↔ s.array_counter = 32) ∧
      (s.array_counter ≠ 32 →
        r.emitted = emit ev.type (qwertz2koy ev.code) ev.value ∧ tracked r.state ev.code) ∧
      (s.array_counter = 32 ↔ ∃ v, s.array[31]? = some v ∧ v ≠ 0) ∧
      ((∀ v ∈ s.array, v ≠ 0) → s.array_counter = 32) := by
  obtain ⟨hI, -, -⟩ := reachable_inv s hs
  obtain ⟨he, hmm, hkk⟩ := press_elig s hs ev hr hm ho
  have hc : is_key_event ev := ⟨hk, by omega, by omega⟩
  obtain ⟨hlen, h2, h3, h4, h5, -⟩ := inv_shape s hI
  have hslot : s.array_counter = 32 ↔ ∃ v, s.array[31]? = some v ∧ v ≠ 0 := by
    constructor
    · intro h32
      obtain ⟨v, hv1, hv2⟩ := h5 (by omega)
      have e : (s.array_counter - 1).toNat = 31 := by omega
      rw [e] at hv1
      exact ⟨v, hv1, hv2⟩
    · rintro ⟨v, hv1, hv2⟩
      by_contra hne
      have := h4 31 (by omega) (by omega)
      rw [hv1] at this
      simp only [Option.some.injEq] at this
      exact hv2 this
  have hall : (∀ v ∈ s.array, v ≠ 0) → s.array_counter = 32 := by
    intro h
    rw [hslot]
    have hlt : 31 < s.array.length := by omega
    exact ⟨s.array[31], List.getElem?_eq_getElem hlt, h _ (List.getElem_mem hlt)⟩
  by_cases h32 : s.array_counter = 32
  · refine ⟨_, step_press_full s ev hc he hv h32, ?_, fun h => absurd h32 h, hslot, hall⟩
    rw [hmm, hkk]
    exact ⟨fun _ => h32, fun _ => ⟨rfl, rfl⟩⟩
  · refine ⟨_, step_track_explicit s hI ev hc he hv h32, ?_, ?_, hslot, hall⟩
    · constructor
      · rintro ⟨h, -⟩
        exfalso
        apply hr
        have := congrArg (fun e : input_event => ((e.code : Nat) : Int)) h
        simp only [emit_code_mapped] at this
        exact this
      · intro h; exact absurd h h32
    · intro _
      refine ⟨rfl, ?_⟩
      show ((ev.code : Nat) : Int) + 1 ∈
        s.array.set s.array_counter.toNat (((ev.code : Nat) : Int) + 1)
      apply List.mem_iff_getElem?.2
      refine ⟨s.array_counter.toNat, ?_⟩
      rw [List.getElem?_set_self (by omega)]

theorem tracking_refused_iff_count_full_witness :
    ∃ r, step hole_state (key 53 1) = some r ∧
      ((r.emitted = key 53 1 ∧ r.state = hole_state) ↔ hole_state.array_counter = 32) ∧
      (hole_state.array_counter ≠ 32 →
        r.emitted = emit (key 53 1).type (qwertz2koy (key 53 1).code) (key 53 1).value ∧
          tracked r.state (key 53 1).code) ∧
      (hole_state.array_counter = 32 ↔ ∃ v, hole_state.array[31]? = some v ∧ v ≠ 0) ∧
      ((∀ v ∈ hole_state.array, v ≠ 0) → hole_state.array_counter = 32) :=
  tracking_refused_iff_count_full hole_state
    ⟨key 29 1 :: (fill_keys.map (fun c => key c 1) ++ [key 12 0]), _, hole_state_reached⟩
    (key 53 1) rfl rfl (by decide) (Or.inl (by decide)) rfl

/-- Claim C13 as stated fails. From the initial state, press left control, press the 32
keys of `fill_keys`, release key 12: slot 0 is empty again and the count is still 32. A
press of key 53 (mapped to 12 by the table), with the trigger mask 1 and the override
mask 0, is then refused: it is emitted unmapped with the warning and the state is
unchanged, although a slot is empty. -/
theorem tracking_refused_counterexample :
    run init (key 29 1 :: (fill_keys.map (fun c => key c 1) ++ [key 12 0])) =
      some (hole_state, key 29 1 :: (fill_keys.map
        (fun c => key (narrow16 (qwertz2koy ((c : Nat) : Int))) 1) ++ [key 25 0])) ∧
    qwertz2koy (((key 53 1).code : Nat) : Int) ≠ (((key 53 1).code : Nat) : Int) ∧
    hole_state.mod_state ≠ 0 ∧ hole_state.koy_mod_state = 0 ∧
    hole_state.array[0]? = some 0 ∧
    step hole_state (key 53 1) =
      some { state := hole_state, emitted := key 53 1, warning := true } :=
  ⟨hole_state_reached, by decide, by decide, by decide, by decide, by decide⟩

/-- Claim C14 (logical-count invariant). After any sequence of records processed from the
initial state the run goes through, the array has its 32 slots, `0 ≤ count ≤ 32`, every
slot at an index from `count` on is empty, and if `count > 0` the slot `count - 1` is
occupied. Consequently `count > 0` holds exactly when some slot is occupied; and the
next loop iteration is defined for every record, which in this embedding means that it
reads and writes slots at indices 0..31 only. -/
theorem logical_count_invariant (evs : List input_event) :
    ∃ s outs, run init evs = some (s, outs) ∧
      s.array.length = 32 ∧ 0 ≤ s.array_counter ∧ s.array_counter ≤ 32 ∧
      (∀ i : Nat, s.array_counter ≤ (i : Int) → i < 32 → s.array[i]? = some 0) ∧
      (0 < s.array_counter →
        ∃ v, s.array[(s.array_counter - 1).toNat]? = some v ∧ v ≠ 0) ∧
      (0 < s.array_counter ↔ ∃ v ∈ s.array, v ≠ 0) ∧
      (∀ ev, ∃ r, step s ev = some r) := by
  obtain ⟨s, outs, hrun, hI, -⟩ := run_total evs init init_inv
  obtain ⟨h1, h2, h3, h4, h5, h6⟩ := inv_shape s hI
  refine ⟨s, outs, hrun, h1, h2, h3, h4, h5, h6, ?_⟩
  intro ev
  obtain ⟨r, hr, -⟩ := step_spec s ev hI
  exact ⟨r, hr⟩

/-- Claim C15 (placement of a tracked press), as amended: in every state reached from the
initial state, when a PRESSED key record whose code the table changes arrives with the
trigger mask non-zero or some slot occupied, with the override mask 0 and with the count
below 32 (so that it is tracked), its code plus one is stored in the slot at index
`count`. That slot was empty, every slot above it is empty and the slot below it (if
any) is occupied: it is the slot just above the highest occupied slot. No other slot
changes, the count is incremented by one, and the record is emitted with the mapped
code. -/
theorem tracked_press_placement (s : State) (hs : Reachable s) (ev : input_event)
    (hk : ((ev.type : Nat) : Int) = EV_KEY) (hv : ev.value = 1)
    (hr : qwertz2koy ev.code ≠ ev.code)
    (hm : s.mod_state ≠ 0 ∨ ∃ v ∈ s.array, v ≠ 0) (ho : s.koy_mod_state = 0)
    (hroom : s.array_counter ≠ 32) :
    ∃ r, step s ev = some r ∧
      r.emitted = emit ev.type (qwertz2koy ev.code) ev.value ∧
      r.state.array_counter = s.array_counter + 1 ∧
      s.array[s.array_counter.toNat]? = some 0 ∧
      r.state.array[s.array_counter.toNat]? = some (((ev.code : Nat) : Int) + 1) ∧
      (∀ i : Nat, i ≠ s.array_counter.toNat → r.state.array[i]? = s.array[i]?) ∧
      (∀ i : Nat, s.array_counter ≤ (i : Int) → i < 32 → s.array[i]? = some 0) ∧
      (0 < s.array_counter →
        ∃ v, s.array[(s.array_counter - 1).toNat]? = some v ∧ v ≠ 0) := by
  obtain ⟨hI, -, -⟩ := reachable_inv s hs
  obtain ⟨he, -, -⟩ := press_elig s hs ev hr hm ho
  have hc : is_key_event ev := ⟨hk, by omega, by omega⟩
  obtain ⟨hlen, h2, h3, h4, h5, -⟩ := inv_shape s hI
  refine ⟨_, step_track_explicit s hI ev hc he hv hroom, rfl, rfl, ?_, ?_, ?_, h4, h5⟩
  · exact h4 s.array_counter.toNat (by omega) (by omega)
  · show (s.array.set s.array_counter.toNat (((ev.code : Nat) : Int) + 1))[
      s.array_counter.toNat]? = _
    rw [List.getElem?_set_self (by omega)]
  · intro i hi
    show (s.array.set s.array_counter.toNat (((ev.code : Nat) : Int) + 1))[i]? = _
    rw [List.getElem?_set_ne (fun h => hi h.symm)]

theorem tracked_press_placement_witness :
    ∃ r, step gap_state (key 17 1) = some r ∧
      r.emitted = emit (key 17 1).type (qwertz2koy (key 17 1).code) (key 17 1).value ∧
      r.state.array_counter = gap_state.array_counter + 1 ∧
      gap_state.array[gap_state.array_counter.toNat]? = some 0 ∧
      r.state.array[gap_state.array_counter.toNat]? =
        some ((((key 17 1).code : Nat) : Int) + 1) ∧
      (∀ i : Nat, i ≠ gap_state.array_counter.toNat →
        r.state.array[i]? = gap_state.array[i]?) ∧
      (∀ i : Nat, gap_state.array_counter ≤ (i : Int) → i < 32 →
        gap_state.array[i]? = some 0) ∧
      (0 < gap_state.array_counter →
        ∃ v, gap_state.array[(gap_state.array_counter - 1).toNat]? = some v ∧ v ≠ 0) :=
  tracked_press_placement gap_state ⟨_, _, gap_state_reached⟩ (key 17 1) rfl rfl
    (by decide) (Or.inl (by decide)) rfl (by decide)

/-- Claim C15 as stated fails. After left control PRESSED, 12 PRESSED, 16 PRESSED,
12 RELEASED the first empty slot is slot 0 and the count is 2. A press of key 17 is then
tracked: it is emitted as 51 PRESSED and its code is stored in slot 2, while slot 0, the
lowest empty slot, stays empty. -/
theorem tracked_press_placement_counterexample :
    run init [key 29 1, key 12 1, key 16 1, key 12 0] =
      some (gap_state, [key 29 1, key 25 1, key 45 1, key 25 0]) ∧
    gap_state.array[0]? = some 0 ∧
    step gap_state (key 17 1) =
      some { state := { mod_state := 1, koy_mod_state := 0, array_counter := 3,
                        array := 0 :: 17 :: 18 :: List.replicate 29 0 },
             emitted := key 51 1, warning := false } :=
  ⟨gap_state_reached, by decide, by decide⟩

/-- Claim C17 (the table holds only real remaps), as amended: every case label of
`qwertz2koy` other than 13 and 27 is mapped to a code different from itself, and the two
case labels 13 and 27 are mapped to themselves. -/
theorem table_real_remaps_except_13_27 :
    (∀ k ∈ table_sources, k ≠ 13 → k ≠ 27 → qwertz2koy k ≠ k) ∧
    qwertz2koy 13 = 13 ∧ qwertz2koy 27 = 27 := by
  decide

theorem table_real_remaps_except_13_27_witness : qwertz2koy 46 ≠ 46 :=
  table_real_remaps_except_13_27.1 46 (by decide) (by decide) (by decide)

/-- Claim C17 as stated fails: 13 is a case label of `qwertz2koy` (line 130) and is
mapped to itself; so is 27 (line 142). -/
theorem table_real_remaps_counterexample :
    (13 : Int) ∈ table_sources ∧ qwertz2koy 13 = 13 ∧
    (27 : Int) ∈ table_sources ∧ qwertz2koy 27 = 27 := by
  decide

/-- Claim C18 (remapping can persist with nothing held). The sequence 29 PRESSED,
46 PRESSED, 58 PRESSED, 46 RELEASED, 58 RELEASED, 29 RELEASED alternates presses and
releases for every key and leaves no key held. After it both masks are 0, but the count
is 1 and slot 0 still holds 47 (key 46); a following press of key 30, with no trigger
key held, is emitted as 31 PRESSED and is tracked in slot 1. -/
theorem remapping_persists :
    Alternating [key 29 1, key 46 1, key 58 1, key 46 0, key 58 0, key 29 0] ∧
    AllReleased [key 29 1, key 46 1, key 58 1, key 46 0, key 58 0, key 29 0] ∧
    run init [key 29 1, key 46 1, key 58 1, key 46 0, key 58 0, key 29 0] =
      some ({ mod_state := 0, koy_mod_state := 0, array_counter := 1,
              array := 47 :: List.replicate 31 0 },
            [key 29 1, key 23 1, key 58 1, key 46 0, key 58 0, key 29 0]) ∧
    step { mod_state := 0, koy_mod_state := 0, array_counter := 1,
           array := 47 :: List.replicate 31 0 } (key 30 1) =
      some { state := { mod_state := 0, koy_mod_state := 0, array_counter := 2,
                        array := 47 :: 31 :: List.replicate 30 0 },
             emitted := key 31 1, warning := false } := by
  refine ⟨by decide, by decide, by decide, by decide⟩

/-- Claim C19 (`qwertz2koy` is injective on all integers). For all integers `a` and `b`,
`qwertz2koy a = qwertz2koy b` implies `a = b`. The case labels are permuted among
themselves (every image of a case label is a case label and every case label is the
image of one), and every other integer is fixed. So two different 16-bit codes never
have the same mapped code in an emitted record. -/
theorem qwertz2koy_injective :
    Function.Injective qwertz2koy ∧
    (∀ a ∈ table_sources, qwertz2koy a ∈ table_sources) ∧
    (∀ b ∈ table_sources, ∃ a ∈ table_sources, qwertz2koy a = b) ∧
    (∀ k : Int, k ∉ table_sources → qwertz2koy k = k) ∧
    (∀ a b : Fin 65536, narrow16 (qwertz2koy a) = narrow16 (qwertz2koy b) → a = b) := by
  refine ⟨fun a b h => qwertz2koy_inj a b h, table_closed, table_onto, qwertz2koy_off_table,
    ?_⟩
  intro a b h
  have h1 := narrow16_qwertz2koy a
  rw [h, narrow16_qwertz2koy b] at h1
  have h2 := qwertz2koy_inj _ _ h1
  apply Fin.ext
  omega

theorem qwertz2koy_injective_witness : qwertz2koy 46 ≠ qwertz2koy 47 :=
  fun h => absurd (qwertz2koy_injective.1 h) (by decide)

/-- Claim C20 (modifier keys are outside the remap). `qwertz2koy` fixes each of the eight
modifier codes, and maps no other integer to one of them. Hence, in every state, a key
record of a modifier key is emitted as it came and leaves the ledger as it is; and no
loop iteration emits a modifier code for a record whose code is not a modifier code. The
last part is stated for every state on which the iteration is defined; it is defined on
every state reached from the initial state. -/
theorem modifiers_outside_remap :
    (∀ m ∈ modifier_codes, qwertz2koy m = m) ∧
    (∀ c : Int, c ∉ modifier_codes → qwertz2koy c ∉ modifier_codes) ∧
    (∀ (s : State) (ev : input_event), ((ev.type : Nat) : Int) = EV_KEY →
      ((ev.code : Nat) : Int) ∈ modifier_codes →
      ∃ r, step s ev = some r ∧ r.emitted = ev ∧ r.state.array = s.array ∧
        r.state.array_counter = s.array_counter) ∧
    (∀ (s : State) (ev : input_event) (r : StepResult), step s ev = some r →
      ((ev.code : Nat) : Int) ∉ modifier_codes →
      ((r.emitted.code : Nat) : Int) ∉ modifier_codes) ∧
    (∀ evs : List input_event, ∃ s outs, run init evs = some (s, outs) ∧
      ∀ ev, ∃ r, step s ev = some r) := by
  refine ⟨modifier_fixed, qwertz2koy_not_modifier, ?_, ?_, ?_⟩
  · intro s ev hk hm
    by_cases hc : is_key_event ev
    · have he : ¬ eligible (update_mod_state s.mod_state ev)
          (update_koy_mod_state s.koy_mod_state ev) s.array_counter ev :=
        fun h => h.1 (modifier_fixed _ hm).symm
      exact ⟨_, step_ineligible s ev hc he, rfl, rfl, rfl⟩
    · exact ⟨_, step_not_key s ev hc, rfl, rfl, rfl⟩
  · intro s ev r h hm
    rcases step_emitted_cases s ev r h with h1 | h1
    · rw [h1]; exact hm
    · rw [h1, emit_code_mapped]
      exact qwertz2koy_not_modifier _ hm
  · intro evs
    obtain ⟨s, outs, hrun, hI, -⟩ := run_total evs init init_inv
    refine ⟨s, outs, hrun, ?_⟩
    intro ev
    obtain ⟨r, hr, -⟩ := step_spec s ev hI
    exact ⟨r, hr⟩

theorem modifiers_outside_remap_witness :
    ∃ r, step full_state (key 29 0) = some r ∧ r.emitted = key 29 0 ∧
      r.state.array = full_state.array ∧ r.state.array_counter = full_state.array_counter :=
  modifiers_outside_remap.2.2.1 full_state (key 29 0) rfl (by decide)

end Koy
